import Mathlib

set_option allowUnsafeReducibility true

/-!
Verification of the record-reconciliation engine and categorization scorer of the
publication-data pipeline (scripts/merge_data.py and
scripts/apply_binary_priority_scoring.py).

Records (Python dicts with optional keys) are modelled as a structure of Option
fields; absent dict keys are `none`.  Python floats are modelled as exact
rationals.  The Python standard-library routines the scripts call
(difflib.SequenceMatcher, html.unescape, re substitutions on the fixed patterns
used) are modelled faithfully below, specialised to how the scripts invoke them.
-/

namespace MergeData

/-- Characters matched by the regex class \w (word characters), modelled for the
ASCII range: letters, digits and underscore. -/
def isWordChar (c : Char) : Bool := c.isAlphanum || c == '_'

/-- Characters matched by the regex class \s and stripped by str.strip. -/
def isSpaceChar (c : Char) : Bool :=
  c == ' ' || c == '\t' || c == '\n' || c == '\r' || c == '\x0b' || c == '\x0c'

/-- Drop leading and trailing whitespace, as Python str.strip(). -/
def stripChars (s : List Char) : List Char :=
  ((s.dropWhile isSpaceChar).reverse.dropWhile isSpaceChar).reverse

/-- State machine for the substitution re.sub(r"\s+", " ", s): every maximal run
of whitespace becomes a single space.  The Bool records whether the previous
character was whitespace. -/
def collapseGo : Bool → List Char → List Char
  | _, [] => []
  | prevSp, c :: rest =>
    if isSpaceChar c then
      match prevSp with
      | true => collapseGo true rest
      | false => ' ' :: collapseGo true rest
    else c :: collapseGo false rest

/-- The substitution re.sub(r"\s+", " ", s). -/
def collapseWs (s : List Char) : List Char := collapseGo false s

/-- Modelled from the Python standard library html.unescape: tries to read one
character reference after an ampersand, returning the replacement text and the
number of characters consumed.  Numeric references (decimal and hexadecimal) are
handled; the named-reference table is abridged to common entities.  What the
development relies on is only that a string containing no ampersand is returned
unchanged, which holds for any reference table. -/
def parseCharRef (rest : List Char) : Option (List Char × Nat) :=
  let named : List (List Char × Char) :=
    [("amp;".toList, '&'), ("lt;".toList, '<'), ("gt;".toList, '>'),
     ("quot;".toList, '"'), ("apos;".toList, '\''), ("nbsp;".toList, ' '),
     ("amp".toList, '&'), ("lt".toList, '<'), ("gt".toList, '>')]
  match named.find? (fun p => p.1.isPrefixOf rest) with
  | some p => some ([p.2], p.1.length)
  | none =>
    match rest with
    | '#' :: more =>
      let digs := more.takeWhile Char.isDigit
      if digs.isEmpty then none
      else
        let n := digs.foldl (fun a c => a * 10 + (c.toNat - 48)) 0
        let used := 1 + digs.length
        let rem := more.drop digs.length
        let used := if rem.head? = some ';' then used + 1 else used
        some ([Char.ofNat n], used)
    | _ => none

/-- One pass of html.unescape over the character list (fuel bounds the recursion;
each step consumes at least one input character, so fuel = length suffices). -/
def unescapeGo : Nat → List Char → List Char
  | 0, s => s
  | _, [] => []
  | fuel + 1, c :: rest =>
    if c == '&' then
      match parseCharRef rest with
      | some (rep, n) => rep ++ unescapeGo fuel (rest.drop n)
      | none => '&' :: unescapeGo fuel rest
    else c :: unescapeGo fuel rest

/-- html.unescape on a character list. -/
def unescape (s : List Char) : List Char := unescapeGo s.length s

/-- The fixed-point loop of _normalize_title step 1: repeatedly decode HTML
entities until the string stops changing.  Every productive unescape pass
strictly shortens the string, so fuel = length + 1 reaches the fixed point. -/
def unescapeFix : Nat → List Char → List Char
  | 0, s => s
  | fuel + 1, s =>
    let t := unescape s
    if t = s then s else unescapeFix fuel t

/-- Scan for the end of an HTML tag: the span of non-'>' characters and whether
a '>' follows it.  The regex <[^>]+> requires at least one character between the
brackets. -/
def tagSpan (rest : List Char) : Option (List Char) :=
  let pre := rest.takeWhile (fun c => c ≠ '>')
  let rem := rest.drop pre.length
  if pre.isEmpty then none
  else match rem with
    | '>' :: after => some after
    | _ => none

/-- The substitution re.sub(r"<[^>]+>", "", s): strip HTML tags.  Fuel bounds
the recursion; each step consumes at least one character. -/
def stripTagsGo : Nat → List Char → List Char
  | 0, s => s
  | _, [] => []
  | fuel + 1, c :: rest =>
    if c == '<' then
      match tagSpan rest with
      | some after => stripTagsGo fuel after
      | none => '<' :: stripTagsGo fuel rest
    else c :: stripTagsGo fuel rest

def stripTags (s : List Char) : List Char := stripTagsGo s.length s

/-- DataMerger._normalize_title on character lists: decode entities to a fixed
point, strip tags, lowercase, delete everything but word characters and
whitespace, collapse whitespace runs and strip. -/
def normTitleChars (s : List Char) : List Char :=
  stripChars (collapseWs
    (((stripTags (unescapeFix (s.length + 1) s)).map Char.toLower).filter
      (fun c => isWordChar c || isSpaceChar c)))

/-- DataMerger._normalize_title. -/
def normalize_title (title : String) : String := ⟨normTitleChars title.data⟩

/-!
Model of difflib.SequenceMatcher(None, a, b).ratio(), as called by
_calculate_similarity.  Since the caller passes isjunk = None the junk set is
empty, so the two junk-extension loops of find_longest_match never fire and are
omitted; the autojunk "popular element" purge (active when len(b) >= 200) is
modelled.  Sequences are character lists; the j2len dictionaries are modelled as
association lists keyed by positions of b, which the algorithm only ever
populates with distinct keys.
-/

/-- Occurrences of an element in b, in ascending position order (the value
b2j[c] before the popular purge). -/
def posList (b : List Char) (c : Char) : List Nat :=
  (List.range b.length).filter (fun j => b.get? j == some c)

/-- The autojunk test of SequenceMatcher.__chain_b: with at least 200 elements,
elements occurring more than len(b)/100 + 1 times are purged from b2j. -/
def isPopular (b : List Char) (c : Char) : Bool :=
  decide (200 ≤ b.length) && decide (b.length / 100 + 1 < (b.filter (fun d => d == c)).length)

/-- b2j lookup with default []: purged (popular) elements behave like absent
keys. -/
def b2j (b : List Char) (c : Char) : List Nat :=
  if isPopular b c then [] else posList b c

/-- Lookup in a j2len association list, defaulting to 0 like dict.get(j, 0). -/
def lookupD (m : List (Nat × Nat)) (j : Nat) : Nat :=
  match m.find? (fun p => p.1 == j) with
  | some p => p.2
  | none => 0

/-- The inner loop of find_longest_match for one row i: walk the ascending
occurrence list of a[i] in b, skipping j < blo, stopping at j >= bhi, recording
newj2len[j] = j2len.get(j-1, 0) + 1 and improving the best block on k >
bestsize.  (Python's j-1 at j = 0 is -1, never a key, hence the explicit j = 0
case.) -/
def flmInner (blo bhi i : Nat) (j2len : List (Nat × Nat)) :
    List Nat → List (Nat × Nat) × (Nat × Nat × Nat) → List (Nat × Nat) × (Nat × Nat × Nat)
  | [], acc => acc
  | j :: js, (newj2len, best) =>
    if j < blo then flmInner blo bhi i j2len js (newj2len, best)
    else if bhi ≤ j then (newj2len, best)
    else
      let k := (if j = 0 then 0 else lookupD j2len (j - 1)) + 1
      let best' := if best.2.2 < k then (i + 1 - k, j + 1 - k, k) else best
      flmInner blo bhi i j2len js (newj2len ++ [(j, k)], best')

/-- One row of the main loop of find_longest_match: run the inner loop over
the occurrence list of a[i], starting a fresh newj2len. -/
def flmRow (a b : List Char) (blo bhi : Nat)
    (st : List (Nat × Nat) × (Nat × Nat × Nat)) (i : Nat) :
    List (Nat × Nat) × (Nat × Nat × Nat) :=
  match a.get? i with
  | some c => flmInner blo bhi i st.1 (b2j b c) ([], st.2)
  | none => ([], st.2)

/-- The main loop of find_longest_match: fold over rows i in [alo, ahi),
threading the previous row's j2len and the best block. -/
def flmMain (a b : List Char) (alo ahi blo bhi : Nat) : Nat × Nat × Nat :=
  ((List.range' alo (ahi - alo)).foldl (flmRow a b blo bhi) ([], (alo, blo, 0))).2

/-- Equality of two indexed elements, false when either index is out of range
(in the modelled runs all compared indices are in range). -/
def elemEq (x y : Option Char) : Bool :=
  match x, y with
  | some c, some d => c == d
  | _, _ => false

/-- The first extension loop: grow the best block leftward over equal elements
(the junk test is vacuous with isjunk = None).  Structural recursion on besti,
which decreases by one per step. -/
def extendL (a b : List Char) (alo blo : Nat) : Nat → Nat → Nat → Nat × Nat × Nat
  | 0, bestj, bestsize => (0, bestj, bestsize)
  | bi + 1, bestj, bestsize =>
    if alo < bi + 1 && blo < bestj && elemEq (a.get? bi) (b.get? (bestj - 1)) then
      extendL a b alo blo bi (bestj - 1) (bestsize + 1)
    else (bi + 1, bestj, bestsize)

/-- The second extension loop: grow the best block rightward over equal
elements.  Fuel bounds the recursion (ahi steps always suffice since bestsize
grows toward ahi). -/
def extendR (a b : List Char) (ahi bhi besti bestj : Nat) : Nat → Nat → Nat
  | 0, bestsize => bestsize
  | fuel + 1, bestsize =>
    if besti + bestsize < ahi && bestj + bestsize < bhi &&
        elemEq (a.get? (besti + bestsize)) (b.get? (bestj + bestsize)) then
      extendR a b ahi bhi besti bestj fuel (bestsize + 1)
    else bestsize

/-- SequenceMatcher.find_longest_match(alo, ahi, blo, bhi) with isjunk = None:
the dynamic-programming sweep followed by the two non-junk extension loops. -/
def find_longest_match (a b : List Char) (alo ahi blo bhi : Nat) : Nat × Nat × Nat :=
  let m := flmMain a b alo ahi blo bhi
  let e := extendL a b alo blo m.1 m.2.1 m.2.2
  let s := extendR a b ahi bhi e.1 e.2.1 ahi e.2.2
  (e.1, e.2.1, s)

/-- Total size of the matching blocks collected by get_matching_blocks: the
recursive subdivision around each longest match, where each side is explored
only when both its ranges are non-empty.  (The final sort and the collapsing of
adjacent blocks performed by get_matching_blocks permute and coalesce blocks
without changing the total size, which is all ratio() consumes.)  Fuel bounds
the recursion depth; every recursive call strictly shrinks its a-range, so the
initial fuel in `ratio` suffices. -/
def matchesTotal (a b : List Char) : Nat → Nat → Nat → Nat → Nat → Nat
  | 0, _, _, _, _ => 0
  | fuel + 1, alo, ahi, blo, bhi =>
    let m := find_longest_match a b alo ahi blo bhi
    let i := m.1
    let j := m.2.1
    let k := m.2.2
    if k = 0 then 0
    else
      (if alo < i ∧ blo < j then matchesTotal a b fuel alo i blo j else 0) + k +
      (if i + k < ahi ∧ j + k < bhi then matchesTotal a b fuel (i + k) ahi (j + k) bhi else 0)

/-- SequenceMatcher.ratio(): 2M / (len(a) + len(b)), and 1.0 when both inputs
are empty. -/
def ratio (a b : List Char) : ℚ :=
  if a.length + b.length = 0 then 1
  else
    let m := matchesTotal a b (a.length + b.length + 1) 0 a.length 0 b.length
    (2 * m : ℚ) / (a.length + b.length : ℚ)

/-- A publication record: a Python dict whose keys may be absent.  An absent key
is `none`; a key present with an empty value is `some ""` (Python distinguishes
the two via `in` versus truthiness, and so does the model). -/
structure Pub where
  title : Option String := none
  year : Option Int := none
  journal : Option String := none
  abstract : Option String := none
  keywords : Option (List String) := none
  doi : Option String := none
  arxivId : Option String := none
  citations : Option Int := none
  bibcode : Option String := none
  scholarUrl : Option String := none
  adsUrl : Option String := none
  openalexUrl : Option String := none
  source : Option String := none
  sources : Option (List String) := none
  citationsBySource : Option (List (String × Int)) := none
  deriving Repr, DecidableEq

/-- Python str.lower on a string (ASCII model). -/
def lowerStr (s : String) : String := ⟨s.data.map Char.toLower⟩

/-- Python str.strip on a string. -/
def stripStr (s : String) : String := ⟨stripChars s.data⟩

/-- DataMerger._calculate_similarity: SequenceMatcher ratio of the normalized
titles weighted 0.7, exact-year agreement weighted 0.3, overridden by 1.0 when
both records carry an equal (case-insensitively) DOI or arXiv id. -/
def calculate_similarity (pub1 pub2 : Pub) : ℚ :=
  let title1 := normalize_title (pub1.title.getD "")
  let title2 := normalize_title (pub2.title.getD "")
  let title_score := ratio title1.data title2.data
  let year_score : ℚ := if pub1.year = pub2.year then 1 else 0
  let doi1 := lowerStr (pub1.doi.getD "")
  let doi2 := lowerStr (pub2.doi.getD "")
  let arxiv1 := lowerStr (pub1.arxivId.getD "")
  let arxiv2 := lowerStr (pub2.arxivId.getD "")
  let identifier_score : ℚ :=
    if doi1 ≠ "" ∧ doi2 ≠ "" ∧ doi1 = doi2 then 1
    else if arxiv1 ≠ "" ∧ arxiv2 ≠ "" ∧ arxiv1 = arxiv2 then 1
    else 0
  if 0 < identifier_score then identifier_score
  else 7 / 10 * title_score + 3 / 10 * year_score

/-- One iteration of the _find_best_match loop: update the running best match
and best score when this candidate strictly improves the score and clears the
0.67 threshold. -/
def fbmStep (target_paper : Pub) (acc : Option Pub × ℚ) (paper : Pub) : Option Pub × ℚ :=
  let score := calculate_similarity target_paper paper
  if acc.2 < score ∧ 67 / 100 ≤ score then (some paper, score) else acc

/-- DataMerger._find_best_match: keep the best-scoring candidate subject to the
0.67 threshold (strict improvement keeps the earliest maximum); an empty
stripped target title short-circuits to no match. -/
def find_best_match (target_paper : Pub) (source_data : List Pub) : Option Pub :=
  let target_title := stripStr (target_paper.title.getD "")
  if target_title = "" then none
  else (source_data.foldl (fbmStep target_paper) (none, 0)).1

/-- dict.update: every key present in the right dict overwrites the left. -/
def updateDict (d o : Pub) : Pub where
  title := o.title.or d.title
  year := o.year.or d.year
  journal := o.journal.or d.journal
  abstract := o.abstract.or d.abstract
  keywords := o.keywords.or d.keywords
  doi := o.doi.or d.doi
  arxivId := o.arxivId.or d.arxivId
  citations := o.citations.or d.citations
  bibcode := o.bibcode.or d.bibcode
  scholarUrl := o.scholarUrl.or d.scholarUrl
  adsUrl := o.adsUrl.or d.adsUrl
  openalexUrl := o.openalexUrl.or d.openalexUrl
  source := o.source.or d.source
  sources := o.sources.or d.sources
  citationsBySource := o.citationsBySource.or d.citationsBySource

/-- Maximum of the values of citations_by_source (Python max on a non-empty
dict-values view; 0 is returned only for the never-taken empty case). -/
def maxValues (l : List (String × Int)) : Int :=
  match l.map Prod.snd with
  | [] => 0
  | v :: vs => vs.foldl max v

/-- The OpenAlex block of _merge_multisource: keep the longer abstract, set
openalexUrl when the match carries one, and union the keyword sets (Python
set-to-list conversion modelled as first-occurrence deduplication). -/
def mergeOpenalex (m o : Pub) : Pub :=
  let m1 := if (m.abstract.getD "").length < (o.abstract.getD "").length
            then { m with abstract := o.abstract } else m
  let m2 := { m1 with openalexUrl := o.openalexUrl.or m1.openalexUrl }
  { m2 with keywords := some ((m2.keywords.getD [] ++ o.keywords.getD []).eraseDups) }

/-- The Google Scholar block of _merge_multisource: keep the longer abstract,
set scholarUrl when the match carries one, and fill doi and arxivId only when
absent. -/
def mergeScholar (m s : Pub) : Pub :=
  let m1 := if (m.abstract.getD "").length < (s.abstract.getD "").length
            then { m with abstract := s.abstract } else m
  let m2 := { m1 with scholarUrl := s.scholarUrl.or m1.scholarUrl }
  let m3 := { m2 with doi := m2.doi.or s.doi }
  { m3 with arxivId := m3.arxivId.or s.arxivId }

/-- The citations_by_source association list that _merge_multisource builds,
one entry per matched source in merge order (ads, openalex, google_scholar). -/
def builtCBS (s a o : Option Pub) : List (String × Int) :=
  (match a with | some x => [("ads", x.citations.getD 0)] | none => []) ++
  (match o with | some x => [("openalex", x.citations.getD 0)] | none => []) ++
  (match s with | some x => [("google_scholar", x.citations.getD 0)] | none => [])

/-- The sources_found list that _merge_multisource accumulates, in merge
order. -/
def sourcesFound (base : Pub) (s a o : Option Pub) : List String :=
  [base.source.getD "base"] ++
  (match a with | some _ => ["ads"] | none => []) ++
  (match o with | some _ => ["openalex"] | none => []) ++
  (match s with | some _ => ["google_scholar"] | none => [])

/-- The citation resolution of _merge_multisource: the maximum across matched
sources when any, else the base count defaulting to 0. -/
def setCitations (m : Pub) (cbs : List (String × Int)) : Pub :=
  if cbs.isEmpty then { m with citations := some (m.citations.getD 0) }
  else { m with citations := some (maxValues cbs), citationsBySource := some cbs }

/-- DataMerger._merge_multisource: start from the base record, let an ADS match
overwrite wholesale, then fold in OpenAlex and Google Scholar, set citations to
the maximum across the matched sources (or keep the base count, defaulting to
0), record the deduplicated source list, and drop the record if it ends up with
no (or an empty) title. -/
def merge_multisource (base_paper : Pub) (scholar_data ads_data openalex_data : Option Pub) :
    Option Pub :=
  let merged := updateDict {} base_paper
  let merged := match ads_data with
    | some a => updateDict merged a
    | none => merged
  let merged := match openalex_data with
    | some o => mergeOpenalex merged o
    | none => merged
  let merged := match scholar_data with
    | some s => mergeScholar merged s
    | none => merged
  let merged := setCitations merged (builtCBS scholar_data ads_data openalex_data)
  let merged :=
    { merged with sources := some (sourcesFound base_paper scholar_data ads_data openalex_data).eraseDups }
  if merged.title.getD "" = "" then none else some merged

/-- Python substring test sub in hay on character lists. -/
def containsSub (sub hay : List Char) : Bool :=
  (List.range (hay.length + 1)).any (fun i => sub.isPrefixOf (hay.drop i))

/-- Python substring test sub in hay on strings. -/
def strContains (hay sub : String) : Bool := containsSub sub.data hay.data

/-- The is_ascl or is_software test of _get_publication_priority: ASCL markers
in bibcode, ADS URL, journal or scholar URL, or software/code markers in the
journal name. -/
def isASCLSoftware (pub : Pub) : Bool :=
  let bibcode := lowerStr (pub.bibcode.getD "")
  let journal := lowerStr (pub.journal.getD "")
  let scholar_url := lowerStr (pub.scholarUrl.getD "")
  let ads_url := lowerStr (pub.adsUrl.getD "")
  (strContains bibcode "ascl" || strContains ads_url "ascl" ||
    strContains journal "astrophysics source code library" ||
    strContains scholar_url "ascl.net") ||
  (strContains journal "software" || strContains journal "code")

/-- The preprint test of _get_publication_priority: arxiv/preprint markers in
the journal or eprint marker in the bibcode. -/
def isPreprintMark (pub : Pub) : Bool :=
  let bibcode := lowerStr (pub.bibcode.getD "")
  let journal := lowerStr (pub.journal.getD "")
  strContains journal "arxiv" || strContains bibcode "eprint" ||
    strContains journal "preprint"

/-- The journal test of _get_publication_priority: any of the recognized
journal-type substrings in the journal name. -/
def isJournalMark (pub : Pub) : Bool :=
  let journal := lowerStr (pub.journal.getD "")
  ["astrophysical journal", "mnras", "monthly notices",
   "astronomy astrophysics", "astronomical journal", "journal",
   "proceedings", "letters"].any (fun jt => strContains journal jt)

/-- DataMerger._get_publication_priority: 1 for ASCL/software entries, 3 for
preprints, 4 for recognized journals, 2 otherwise.  (The code also lowercases
the title but never consults it, and its except branch is unreachable since
every access is defaulted.) -/
def get_publication_priority (pub : Pub) : Int :=
  if isASCLSoftware pub then 1
  else if isPreprintMark pub then 3
  else if isJournalMark pub then 4
  else 2

/-- The composite duplicate-resolution score of _check_for_duplicates:
publication-type priority weighted 100, source count weighted 10, citations
weighted 1/10000. -/
def dup_score (pub : Pub) : ℚ :=
  (get_publication_priority pub : ℚ) * 100
    + ((pub.sources.getD []).length : ℚ) * 10
    + (pub.citations.getD 0 : ℚ) / 10000

/-- Normalized-title grouping key of a record. -/
def normKey (p : Pub) : String := normalize_title (p.title.getD "")

/-- Keys in order of first occurrence, deduplicated: the iteration order of the
Python defaultdict built by appending into title_groups. -/
def firstKeys : List String → List String
  | [] => []
  | k :: rest => k :: (firstKeys rest).filter (fun x => x ≠ k)

/-- One iteration of the survivor-selection loop of _check_for_duplicates:
strict improvement over the running best score. -/
def sbStep (acc : Option Pub × ℚ) (p : Pub) : Option Pub × ℚ :=
  let s := dup_score p
  if acc.2 < s then (some p, s) else acc

/-- The survivor selection of _check_for_duplicates within a duplicate group:
fold with best_score starting at -1, strict improvement, keeping the first
maximum; the result is appended only when a best record was found. -/
def selectBest (ps : List Pub) : List Pub :=
  match (ps.foldl sbStep (none, -1)).1 with
  | some best => [best]
  | none => []

/-- The per-group action of _check_for_duplicates: the group of records whose
normalized title equals the key, passed through when a singleton and resolved
by selectBest when larger. -/
def groupHandler (publications : List Pub) (k : String) : List Pub :=
  match publications.filter (fun p => normKey p = k) with
  | [] => []
  | [p] => [p]
  | ps => selectBest ps

/-- DataMerger._check_for_duplicates: group records by normalized title
(grouping preserves first-occurrence key order and within-group input order),
pass singleton groups through and keep the best-scoring record of each larger
group.  Console reporting is side-effect-only and does not affect the returned
list. -/
def check_for_duplicates (publications : List Pub) : List Pub :=
  if publications.isEmpty then publications
  else ((firstKeys (publications.map normKey)).map (groupHandler publications)).flatten

/-- The sort key year (missing year counts as 0). -/
def yearKey (p : Pub) : Int := p.year.getD 0

/-- Stable insertion placing a record after all records with a year at least
its own. -/
def insertYearDesc (p : Pub) : List Pub → List Pub
  | [] => [p]
  | q :: rest =>
    if yearKey p ≤ yearKey q then q :: insertYearDesc p rest else p :: q :: rest

/-- Python sorted(key = year or 0, reverse = True): a stable descending sort,
realised as stable insertion sort (extensionally equal to any stable sort under
the same key). -/
def sortYearDesc (l : List Pub) : List Pub :=
  l.foldl (fun acc p => insertYearDesc p acc) []

/-- DataMerger.merge_publications_multisource: per base paper (skipping empty
stripped titles) find the best match in each source, merge, then deduplicate
and sort newest-first. -/
def merge_publications_multisource
    (paper_list scholar_data ads_data openalex_data : List Pub) : List Pub :=
  let merged_publications := paper_list.foldl
    (fun acc paper =>
      if stripStr (paper.title.getD "") = "" then acc
      else
        match merge_multisource paper (find_best_match paper scholar_data)
            (find_best_match paper ads_data) (find_best_match paper openalex_data) with
        | some merged_paper => acc ++ [merged_paper]
        | none => acc)
    []
  sortYearDesc (check_for_duplicates merged_publications)


/-!
Model of apply_binary_priority_scoring.py: text cleaning, binary keyword
presence with word-boundary regex semantics, the category scorer and the
sum normalization.
-/

/-- The ENHANCED_METHODOLOGICAL_KEYWORDS table of
enhanced_methodological_keywords.py: per category, the keyword-to-base-weight
lexicon, in source order. -/
def ENHANCED_METHODOLOGICAL_KEYWORDS : List (String × List (String × ℚ)) := [
  ("Statistical Learning & AI", [
    ("neural network", 15), ("neural networks", 15), ("deep learning", 15),
    ("machine learning", 15), ("artificial intelligence", 12), ("convolutional", 12),
    ("recurrent", 12), ("transformer", 12), ("attention", 10), ("variational autoencoder", 15),
    ("variational auto-encoder", 15), ("autoencoder", 12), ("auto-encoder", 12),
    ("encoder", 8), ("decoder", 8), ("variational", 10), ("generative model", 12),
    ("generative models", 12), ("generative", 8), ("normalizing flows", 15),
    ("normalizing flow", 15), ("conditional flows", 12), ("invertible", 10), ("bijective", 10),
    ("data-driven", 12), ("data driven", 12), ("unsupervised", 10), ("supervised", 8),
    ("semi-supervised", 8), ("representation learning", 10), ("latent space", 10),
    ("latent", 6), ("embedding", 8), ("feature learning", 8), ("feature extraction", 6),
    ("dimensionality reduction", 8), ("spectral", 6), ("spectra", 4), ("training", 4),
    ("optimization", 4), ("gradient", 4), ("backpropagation", 6), ("hyperparameter", 4),
    ("cross-validation", 4), ("random forest", 6), ("support vector", 6),
    ("gaussian process", 6), ("kernel", 4), ("clustering", 6), ("classification", 6),
    ("regression", 5), ("ensemble", 6), ("probabilistic model", 6), ("statistical model", 5),
    ("nonparametric", 5), ("parametric", 3), ("flexible model", 5), ("prediction", 3),
    ("predictive", 3), ("reconstruction", 5), ("accuracy", 3), ("performance", 3),
    ("validation", 3), ("preprocessing", 4), ("normalization", 4), ("standardization", 4),
    ("augmentation", 4)
  ]),
  ("Interpretability & Insight", [
    ("interpretability", 15), ("interpretable", 15), ("explainable", 15),
    ("explainability", 15), ("explanation", 10), ("trustworthy", 12), ("transparency", 10),
    ("black box", 8), ("white box", 8), ("feature importance", 12), ("attribution", 10),
    ("feature attribution", 12), ("saliency", 8), ("attention map", 8), ("gradient-based", 6),
    ("integrated gradients", 8), ("shapley", 8), ("shap", 8), ("lime", 8),
    ("understanding", 6), ("insight", 8), ("insights", 8), ("interpretation", 8),
    ("analysis", 4), ("visualization", 6), ("visualisation", 6), ("conflicting", 6),
    ("role", 3), ("constraining", 5), ("bias", 10), ("systematic", 8), ("systematics", 10),
    ("gap", 8), ("label", 6), ("labels", 6), ("independent", 5), ("dependent", 4),
    ("dependence", 4), ("fairness", 8), ("discrimination", 6), ("equity", 6),
    ("uncertainty quantification", 12), ("uncertainty", 8), ("confidence", 5),
    ("reliability", 8), ("robustness", 8), ("robust", 6), ("stable", 4), ("stability", 5),
    ("sensitive", 4), ("sensitivity", 5), ("validation", 5), ("verification", 5),
    ("testing", 4), ("evaluation", 4), ("assessment", 4), ("diagnostic", 5),
    ("diagnostics", 5), ("calibration", 6), ("calibrated", 5), ("adversarial", 6),
    ("counterfactual", 8), ("perturbation", 6), ("occlusion", 6), ("behavior", 5),
    ("behaviour", 5), ("decision", 4), ("reasoning", 6), ("rationale", 6)
  ]),
  ("Inference & Computation", [
    ("bayesian", 15), ("bayesian inference", 18), ("bayesian statistics", 15),
    ("bayesian analysis", 12), ("bayesian framework", 10), ("bayesian approach", 10),
    ("bayesian model", 10), ("inference", 12), ("statistical inference", 15),
    ("statistical framework", 12), ("statistical analysis", 8), ("likelihood", 10),
    ("likelihood-free", 12), ("posterior", 10), ("prior", 10), ("priors", 10),
    ("posterior distribution", 8), ("prior distribution", 8), ("marginal likelihood", 8),
    ("evidence", 6), ("markov chain monte carlo", 15), ("markov chain", 12), ("mcmc", 15),
    ("monte carlo", 12), ("sampling", 8), ("nested sampling", 12), ("importance sampling", 10),
    ("rejection sampling", 8), ("hamiltonian", 10), ("metropolis", 8), ("gibbs", 8),
    ("slice sampling", 8), ("variational inference", 12), ("variational bayes", 12),
    ("variational approximation", 8), ("mean field", 6), ("model selection", 12),
    ("model comparison", 12), ("model averaging", 8), ("information criterion", 8),
    ("cross-validation", 6), ("aic", 6), ("bic", 6), ("dic", 6), ("waic", 8), ("loo", 6),
    ("leave-one-out", 6), ("zero-inflated", 15), ("zero inflated", 15), ("hurdle model", 12),
    ("hurdle", 8), ("count model", 10), ("count data", 8), ("overdispersion", 8),
    ("negative binomial", 10), ("poisson", 8), ("binomial", 6), ("multinomial", 6),
    ("hierarchical", 10), ("hierarchical model", 12), ("multilevel", 8), ("mixed effects", 8),
    ("random effects", 6), ("fixed effects", 4), ("parameter estimation", 8),
    ("estimation", 6), ("estimator", 6), ("maximum likelihood", 8),
    ("maximum a posteriori", 8), ("method of moments", 6), ("calibrate", 8),
    ("calibration", 8), ("calibrated", 6), ("grid", 6), ("grids", 6), ("credible interval", 8),
    ("confidence interval", 6), ("prediction interval", 6), ("uncertainty quantification", 8),
    ("hypothesis testing", 8), ("significance", 4), ("p-value", 4), ("statistical test", 6),
    ("computational statistics", 10), ("numerical methods", 6), ("simulation", 6),
    ("bootstrap", 6), ("resampling", 6), ("permutation", 4), ("probability", 5),
    ("probabilistic", 6), ("stochastic", 6), ("distribution", 4), ("gaussian", 4),
    ("normal", 3), ("uniform", 3), ("beta", 4), ("gamma", 4), ("dirichlet", 6),
    ("diagnostic", 5), ("convergence", 5), ("trace", 4), ("effective sample size", 5),
    ("autocorrelation", 4), ("chain", 4), ("approximate", 5), ("approximation", 5),
    ("asymptotic", 4), ("large sample", 4), ("frequentist", 6), ("classical", 3),
    ("traditional", 2)
  ]),
  ("Discovery & Understanding", [
    ("galaxy", 4), ("galaxies", 4), ("stellar", 3), ("star", 3), ("stars", 3),
    ("supernova", 4), ("supernovae", 4), ("quasar", 4), ("black hole", 4), ("neutron star", 4),
    ("white dwarf", 4), ("exoplanet", 4), ("milky way", 4), ("andromeda", 4),
    ("local group", 4), ("cluster", 3), ("globular cluster", 4), ("open cluster", 4),
    ("galaxy cluster", 4), ("dark matter", 5), ("dark energy", 5), ("cosmology", 5),
    ("cosmological", 4), ("universe", 4), ("cosmic", 4), ("redshift", 4), ("luminosity", 2),
    ("magnitude", 2), ("photometry", 2), ("spectroscopy", 2), ("spectrum", 2), ("spectra", 2),
    ("emission", 2), ("absorption", 2), ("metallicity", 3), ("abundance", 3), ("chemical", 3),
    ("kinematic", 3), ("proper motion", 3), ("radial velocity", 3), ("distance", 3),
    ("parallax", 3), ("formation", 4), ("evolution", 4), ("population", 2), ("populations", 2),
    ("structure", 2), ("morphology", 3), ("catalog", 3), ("catalogue", 3), ("survey", 3),
    ("observation", 2), ("observational", 2), ("telescope", 3), ("instrument", 2), ("gaia", 3),
    ("hubble", 3), ("jwst", 3), ("kepler", 3), ("sloan", 3), ("sdss", 3), ("desi", 3),
    ("discovery", 5), ("detection", 4), ("identification", 3), ("characterization", 3),
    ("measurement", 2), ("constraint", 2), ("determination", 2)
  ])
]

/-- The METHODOLOGICAL_PRIORITY multiplier table. -/
def METHODOLOGICAL_PRIORITY : List (String × ℚ) :=
  [("Statistical Learning & AI", 2), ("Interpretability & Insight", 2),
   ("Inference & Computation", 2), ("Discovery & Understanding", 1)]

/-- METHODOLOGICAL_PRIORITY.get(category, 1.0). -/
def priorityMultiplier (category : String) : ℚ :=
  match METHODOLOGICAL_PRIORITY.find? (fun p => p.1 == category) with
  | some p => p.2
  | none => 1

/-- The FIELD_WEIGHTS table: title 3.0, abstract 1.0, keywords 2.0. -/
def fieldWeightTitle : ℚ := 3
def fieldWeightAbstract : ℚ := 1
def fieldWeightKeywords : ℚ := 2

/-- clean_text: lowercase, replace every character that is not a word
character, whitespace or hyphen by a space, strip, and collapse whitespace
runs to single spaces. -/
def clean_text (text : String) : String :=
  let repl := text.data.map (fun c =>
    let c := c.toLower
    if isWordChar c || isSpaceChar c || c == '-' then c else ' ')
  ⟨collapseWs (stripChars repl)⟩

/-- Word-boundary test of the regex metacharacter \b between two (possibly
absent) adjacent characters: exactly one side is a word character. -/
def boundaryB (x y : Option Char) : Bool :=
  let wx := match x with | some c => isWordChar c | none => false
  let wy := match y with | some c => isWordChar c | none => false
  wx != wy

/-- keyword_present: whether re.search finds \b + escaped keyword + \b in the
text, case-insensitively (both sides are compared lowercased; lowercasing does
not change word-character status, so the boundary test is unaffected). -/
def keyword_present (keyword text : String) : Bool :=
  let k := keyword.data.map Char.toLower
  let t := text.data.map Char.toLower
  (List.range (t.length + 1)).any (fun i =>
    k.isPrefixOf (t.drop i) &&
    boundaryB (if i = 0 then none else t.get? (i - 1)) k.head? &&
    boundaryB k.getLast? (t.get? (i + k.length)))

/-- The number of fields (cleaned title, abstract, keywords) containing the
keyword, used in the matched-term annotation. -/
def kwFieldCount (title_clean abstract_clean keywords_clean : String)
    (kw : String × ℚ) : Nat :=
  (if keyword_present kw.1 title_clean then 1 else 0) +
  (if keyword_present kw.1 abstract_clean then 1 else 0) +
  (if keyword_present kw.1 keywords_clean then 1 else 0)

/-- The keyword total of the score_paper_binary_priority inner loop: base
weight times field weight summed over the fields containing the keyword. -/
def keywordTotal (title_clean abstract_clean keywords_clean : String)
    (kw : String × ℚ) : ℚ :=
  (if keyword_present kw.1 title_clean then kw.2 * fieldWeightTitle else 0) +
  (if keyword_present kw.1 abstract_clean then kw.2 * fieldWeightAbstract else 0) +
  (if keyword_present kw.1 keywords_clean then kw.2 * fieldWeightKeywords else 0)

/-- One keyword of the score_paper_binary_priority inner loop: accumulate the
keyword total and record the annotated keyword when the total is positive. -/
def kwStep (title_clean abstract_clean keywords_clean : String)
    (acc : ℚ × List String) (kw : String × ℚ) : ℚ × List String :=
  if 0 < keywordTotal title_clean abstract_clean keywords_clean kw then
    (acc.1 + keywordTotal title_clean abstract_clean keywords_clean kw,
     acc.2 ++ [kw.1 ++ "(" ++
       toString (kwFieldCount title_clean abstract_clean keywords_clean kw) ++ ")"])
  else acc

/-- score_paper_binary_priority: per category, sum the keyword contributions
over the cleaned title, first-800-character abstract and joined keywords, and
scale by the category priority multiplier.  Returns the scores (in table
order, one entry per category like the defaultdict the code fills) and the
matched-term diagnostics (only categories with matches). -/
def score_paper_binary_priority (publication : Pub) :
    List (String × ℚ) × List (String × List String) :=
  let title_clean := clean_text (publication.title.getD "")
  let abstract_clean := clean_text ⟨(publication.abstract.getD "").data.take 800⟩
  let keywords_clean := clean_text (String.intercalate " " (publication.keywords.getD []))
  let scored := ENHANCED_METHODOLOGICAL_KEYWORDS.map (fun cat =>
    let folded := cat.2.foldl (kwStep title_clean abstract_clean keywords_clean) (0, [])
    (cat.1, folded.1 * priorityMultiplier cat.1, folded.2))
  (scored.map (fun e => (e.1, e.2.1)),
   (scored.filter (fun e => !e.2.2.isEmpty)).map (fun e => (e.1, e.2.2)))

/-- normalize_scores: equal probabilities 0.25 when there are no scores or all
are zero, otherwise each score divided by the total. -/
def normalize_scores (scores : List (String × ℚ)) : List (String × ℚ) :=
  if scores.isEmpty || scores.all (fun e => e.2 == 0) then
    scores.map (fun e => (e.1, (1 : ℚ) / 4))
  else
    let total_score := (scores.map Prod.snd).sum
    scores.map (fun e => (e.1, e.2 / total_score))

/-!
Concrete records used by counterexamples and witnesses.
-/

/-- A base record with a non-empty title and journal. -/
def baseC1 : Pub := { title := some "Base Title", journal := some "Base Journal" }

/-- An ADS-matched record with a different title and journal. -/
def adsC1 : Pub := { title := some "Ads Title", journal := some "Ads Journal" }

/-- A software-registry (ASCL) record. -/
def asclRec : Pub :=
  { title := some "Same Paper", bibcode := some "2020ascl.soft01001S",
    citations := some 2, sources := some ["ads"] }

/-- A journal-article record with the same title. -/
def journalRec : Pub :=
  { title := some "Same Paper", journal := some "The Astrophysical Journal",
    citations := some 40, sources := some ["ads"] }

/-- A preprint record with the same title. -/
def preprintRec : Pub :=
  { title := some "Same Paper", journal := some "arXiv e-prints",
    citations := some 35, sources := some ["ads"] }

/-- A record carrying no metadata at all (unknown publication type). -/
def unknownRec : Pub := {}

/-- A target record whose title is present but empty while its DOI matches a
candidate. -/
def tgtEmptyTitle : Pub := { title := some "", doi := some "10.1/x" }

/-- A candidate sharing tgtEmptyTitle's DOI. -/
def candDoi : Pub := { title := some "Anything Else", doi := some "10.1/x" }

/-- A target with a non-empty title and a DOI. -/
def tgtC4 : Pub := { title := some "a", doi := some "10.2/y" }

/-- A candidate sharing tgtC4's DOI. -/
def candC4 : Pub := { title := some "zzz", doi := some "10.2/y" }

/-- A record titled "tide". -/
def tideRec : Pub := { title := some "tide", year := some 2020 }

/-- A record titled "diet". -/
def dietRec : Pub := { title := some "diet", year := some 2020 }

/-- The concrete merged record of baseC1 with the ADS match adsC1. -/
def mergedC1 : Pub := (merge_multisource baseC1 none (some adsC1) none).getD {}

/-- The concrete merged record of baseC7 with one matched (ADS) source. -/
def baseC7 : Pub := { title := some "Paper", citations := some 7 }

/-- The matched ADS record for the C7 witness. -/
def adsC7 : Pub := { citations := some 5 }

/-- The concrete merge of baseC7 with adsC7. -/
def mergedC7 : Pub := (merge_multisource baseC7 none (some adsC7) none).getD {}

/-- Specification device for the reflexivity proof of ratio: whether positions
i and j of t hold equal, non-purged elements (so that the main loop can chain
them). -/
def matchB (t : List Char) (i j : Nat) : Bool :=
  match t.get? i, t.get? j with
  | some ci, some cj => ci == cj && !isPopular t cj
  | _, _ => false

/-- Specification device: the value the main loop's j2len chaining assigns to
cell (i, j) when a = b = t — the length of the longest common non-purged
suffix of t[0..i] and t[0..j]. -/
def cs (t : List Char) : Nat → Nat → Nat
  | 0, j => if matchB t 0 j then 1 else 0
  | i + 1, 0 => if matchB t (i + 1) 0 then 1 else 0
  | i + 1, j + 1 => if matchB t (i + 1) (j + 1) then cs t i j + 1 else 0

/-- The chaining value visible from row i: the previous row's cs, or 0 before
the first row. -/
def prevCs (t : List Char) : Nat → Nat → Nat
  | 0, _ => 0
  | i + 1, j => cs t i j

/-- The largest diagonal chain value among rows before i. -/
def maxDiag (t : List Char) : Nat → Nat
  | 0 => 0
  | i + 1 => max (maxDiag t i) (cs t i i)

/-- No two adjacent whitespace characters (the shape of collapsed text). -/
def noSpacePair (c d : Char) : Prop := ¬(isSpaceChar c = true ∧ isSpaceChar d = true)

/-- The head, when present, is not whitespace. -/
def headNotSpace (l : List Char) : Prop := ∀ c ∈ l.head?, isSpaceChar c = false

/-!
Theorems settling the claims, with their supporting lemmas.
-/

/-- Helper: a guarded some equals some m exactly when the guard fails and the
payloads agree. -/
theorem ite_none_some_iff {α : Type} {c : Prop} [Decidable c] {x m : α} :
    ((if c then none else some x) = some m) ↔ (¬c ∧ x = m) := by
  split <;> simp_all

theorem updateDict_title (d o : Pub) : (updateDict d o).title = o.title.or d.title := rfl

theorem updateDict_journal (d o : Pub) : (updateDict d o).journal = o.journal.or d.journal := rfl

theorem updateDict_citations (d o : Pub) :
    (updateDict d o).citations = o.citations.or d.citations := rfl

theorem mergeOpenalex_title (m o : Pub) : (mergeOpenalex m o).title = m.title := by
  simp [mergeOpenalex, apply_ite]

theorem mergeOpenalex_journal (m o : Pub) : (mergeOpenalex m o).journal = m.journal := by
  simp [mergeOpenalex, apply_ite]

theorem mergeOpenalex_citations (m o : Pub) : (mergeOpenalex m o).citations = m.citations := by
  simp [mergeOpenalex, apply_ite]

theorem mergeScholar_title (m s : Pub) : (mergeScholar m s).title = m.title := by
  simp [mergeScholar, apply_ite]

theorem mergeScholar_journal (m s : Pub) : (mergeScholar m s).journal = m.journal := by
  simp [mergeScholar, apply_ite]

theorem mergeScholar_citations (m s : Pub) : (mergeScholar m s).citations = m.citations := by
  simp [mergeScholar, apply_ite]

theorem setCitations_title (m : Pub) (cbs : List (String × Int)) :
    (setCitations m cbs).title = m.title := by
  simp [setCitations, apply_ite]

theorem setCitations_journal (m : Pub) (cbs : List (String × Int)) :
    (setCitations m cbs).journal = m.journal := by
  simp [setCitations, apply_ite]

theorem setCitations_citations (m : Pub) (cbs : List (String × Int)) :
    (setCitations m cbs).citations =
      (if cbs.isEmpty then some (m.citations.getD 0) else some (maxValues cbs)) := by
  unfold setCitations
  split <;> simp_all

theorem setCitations_cbs (m : Pub) (cbs : List (String × Int)) :
    (setCitations m cbs).citationsBySource =
      (if cbs.isEmpty then m.citationsBySource else some cbs) := by
  unfold setCitations
  split <;> simp_all

/-- C3 counterexample: the code gives an ASCL software-registry record priority
1 and a record of unknown type priority 2, so the priority function ranks
software-catalog entries BELOW unknown-type records, contradicting the claimed
order software-catalog entry > unknown type. -/
theorem C3_counterexample :
    get_publication_priority asclRec = 1 ∧ get_publication_priority unknownRec = 2 ∧
    get_publication_priority asclRec < get_publication_priority unknownRec := by
  refine ⟨by decide, by decide, by decide⟩

attribute [local semireducible] Rat.add Rat.mul Rat.inv Rat.sub in
/-- C8 (Scenario B): among a software-registry entry with 2 citations, a
journal article with 40 citations and a preprint with 35 citations, all with
identical normalized titles, the duplicate resolver keeps exactly the journal
article. -/
theorem C8_scenarioB :
    check_for_duplicates [asclRec, journalRec, preprintRec] = [journalRec] := by
  decide

/-- C1 counterexample: merging a base record with a matched ADS record
overwrites the base title (and journal) with the ADS values even though the
base values are non-empty, contradicting "title never overwritten" and
"fill-if-empty, else keep base". -/
theorem C1_counterexample :
    (merge_multisource baseC1 none (some adsC1) none).map Pub.title
        = some (some "Ads Title") ∧
    (merge_multisource baseC1 none (some adsC1) none).map Pub.journal
        = some (some "Ads Journal") ∧
    baseC1.title = some "Base Title" ∧ baseC1.journal = some "Base Journal" := by
  refine ⟨by decide, by decide, by decide, by decide⟩

/-- C3 amended: the publication-type priority function orders records as
journal article/conference paper (4) > preprint/eprint (3) > unknown type (2)
> software-catalog entry (1): the software-catalog class ranks below, not
above, the unknown class.  The classes are the classifier's own branch
predicates. -/
theorem C3_amended_priority_order (p q : Pub) :
    (isASCLSoftware p = false → isPreprintMark p = false → isJournalMark p = true →
      isASCLSoftware q = false → isPreprintMark q = true →
      get_publication_priority q < get_publication_priority p) ∧
    (isASCLSoftware p = false → isPreprintMark p = true →
      isASCLSoftware q = false → isPreprintMark q = false → isJournalMark q = false →
      get_publication_priority q < get_publication_priority p) ∧
    (isASCLSoftware p = false → isPreprintMark p = false → isJournalMark p = false →
      isASCLSoftware q = true →
      get_publication_priority q < get_publication_priority p) := by
  unfold get_publication_priority
  refine ⟨?_, ?_, ?_⟩ <;> intros <;> simp_all

/-- Witness for C3: the amended ordering evaluated at a journal article, a
preprint, an unknown-type record and an ASCL record. -/
theorem C3_witness :
    get_publication_priority preprintRec < get_publication_priority journalRec ∧
    get_publication_priority unknownRec < get_publication_priority preprintRec ∧
    get_publication_priority asclRec < get_publication_priority unknownRec :=
  ⟨(C3_amended_priority_order journalRec preprintRec).1
      (by decide) (by decide) (by decide) (by decide) (by decide),
   (C3_amended_priority_order preprintRec unknownRec).2.1
      (by decide) (by decide) (by decide) (by decide) (by decide),
   (C3_amended_priority_order unknownRec asclRec).2.2
      (by decide) (by decide) (by decide) (by decide)⟩

theorem kwfold_nonneg (tc ac kc : String) (kws : List (String × ℚ)) :
    ∀ acc : ℚ × List String, 0 ≤ acc.1 → 0 ≤ (kws.foldl (kwStep tc ac kc) acc).1 := by
  induction kws with
  | nil => intro acc h; exact h
  | cons kw rest ih =>
    intro acc h
    refine ih _ ?_
    unfold kwStep
    split
    · next hpos => exact add_nonneg h (le_of_lt hpos)
    · exact h

theorem mult_nonneg (c : String) : 0 ≤ priorityMultiplier c := by
  unfold priorityMultiplier
  cases hf : METHODOLOGICAL_PRIORITY.find? (fun p => p.1 == c) with
  | none => norm_num
  | some p =>
    have hm := List.mem_of_find?_eq_some hf
    simp only [METHODOLOGICAL_PRIORITY, List.mem_cons, List.mem_singleton,
      List.not_mem_nil, or_false] at hm
    rcases hm with rfl | rfl | rfl | rfl <;> norm_num

theorem scores_nonneg (pub : Pub) :
    ∀ e ∈ (score_paper_binary_priority pub).1, 0 ≤ e.2 := by
  intro e he
  simp only [score_paper_binary_priority, List.mem_map] at he
  obtain ⟨x, ⟨cat, hcat, rfl⟩, rfl⟩ := he
  exact mul_nonneg (kwfold_nonneg _ _ _ _ _ le_rfl) (mult_nonneg _)

theorem sum_map_const_val (l : List (String × ℚ)) (c : ℚ) :
    (l.map (fun _ => c)).sum = l.length * c := by
  induction l with
  | nil => simp
  | cons e r ih =>
    simp [ih]
    ring

theorem sum_map_div_val (l : List ℚ) (T : ℚ) :
    (l.map (fun x => x / T)).sum = l.sum / T := by
  induction l with
  | nil => simp
  | cons x rest ih => simp [ih, add_div]

theorem sum_pos_of_not_all_zero (l : List (String × ℚ)) (hnn : ∀ e ∈ l, 0 ≤ e.2)
    (hne : l.all (fun e => e.2 == 0) = false) : 0 < (l.map Prod.snd).sum := by
  induction l with
  | nil => simp at hne
  | cons e rest ih =>
    have hrest_nn : ∀ x ∈ rest, 0 ≤ x.2 := fun x hx => hnn x (List.mem_cons_of_mem e hx)
    have he_nn : 0 ≤ e.2 := hnn e (List.mem_cons_self e rest)
    have hsum_nn : 0 ≤ (rest.map Prod.snd).sum := by
      apply List.sum_nonneg
      intro x hx
      simp only [List.mem_map] at hx
      obtain ⟨y, hy, rfl⟩ := hx
      exact hrest_nn y hy
    simp only [List.all_cons, Bool.and_eq_false_iff] at hne
    simp only [List.map_cons, List.sum_cons]
    rcases hne with h | h
    · have hne0 : e.2 ≠ 0 := by simpa using h
      have : 0 < e.2 := lt_of_le_of_ne he_nn (Ne.symm hne0)
      linarith
    · have := ih hrest_nn h
      linarith

/-- C2: for every record, the scorer followed by sum normalization yields
probabilities that are all non-negative and sum exactly to 1 (hence within
1e-6), and when every raw category score is zero the result is the uniform
distribution 1/4 on each of the four labels, with no division by zero. -/
theorem C2_probability_invariant (pub : Pub) :
    (∀ e ∈ normalize_scores (score_paper_binary_priority pub).1, 0 ≤ e.2) ∧
    ((normalize_scores (score_paper_binary_priority pub).1).map Prod.snd).sum = 1 ∧
    ((score_paper_binary_priority pub).1.all (fun e => e.2 == 0) = true →
      normalize_scores (score_paper_binary_priority pub).1 =
        (score_paper_binary_priority pub).1.map (fun e => (e.1, (1 : ℚ) / 4))) := by
  set scores := (score_paper_binary_priority pub).1 with hscores
  have hnn : ∀ e ∈ scores, 0 ≤ e.2 := scores_nonneg pub
  have hlen : scores.length = 4 := by
    rw [hscores]
    simp only [score_paper_binary_priority, List.length_map]
    rfl
  by_cases hz : (scores.isEmpty || scores.all (fun e => e.2 == 0)) = true
  · have hprobs : normalize_scores scores = scores.map (fun e => (e.1, (1 : ℚ) / 4)) := by
      unfold normalize_scores
      rw [if_pos hz]
    refine ⟨?_, ?_, fun _ => hprobs⟩
    · intro e he
      rw [hprobs] at he
      simp only [List.mem_map] at he
      obtain ⟨x, hx, rfl⟩ := he
      norm_num
    · rw [hprobs, List.map_map]
      have : (Prod.snd ∘ fun e : String × ℚ => (e.1, (1 : ℚ) / 4)) = fun _ => (1 : ℚ) / 4 := rfl
      rw [this, sum_map_const_val, hlen]
      norm_num
  · have hz' : scores.isEmpty = false ∧ scores.all (fun e => e.2 == 0) = false := by
      constructor
      · cases h : scores.isEmpty
        · rfl
        · exact absurd (by rw [h]; rfl) hz
      · cases h : scores.all (fun e => e.2 == 0)
        · rfl
        · exact absurd (by rw [h, Bool.or_true]) hz
    have hpos : 0 < (scores.map Prod.snd).sum := sum_pos_of_not_all_zero scores hnn hz'.2
    have hprobs : normalize_scores scores =
        scores.map (fun e => (e.1, e.2 / (scores.map Prod.snd).sum)) := by
      unfold normalize_scores
      rw [if_neg (by rw [hz'.1, hz'.2]; simp)]
    refine ⟨?_, ?_, ?_⟩
    · intro e he
      rw [hprobs] at he
      simp only [List.mem_map] at he
      obtain ⟨x, hx, rfl⟩ := he
      exact div_nonneg (hnn x hx) (le_of_lt hpos)
    · rw [hprobs, List.map_map]
      have : (Prod.snd ∘ fun e : String × ℚ => (e.1, e.2 / (scores.map Prod.snd).sum)) =
          (fun e : String × ℚ => e.2 / (scores.map Prod.snd).sum) := rfl
      rw [this]
      have hmm : (scores.map fun e : String × ℚ => e.2 / (scores.map Prod.snd).sum) =
          ((scores.map Prod.snd).map fun x => x / (scores.map Prod.snd).sum) := by
        rw [List.map_map]
        rfl
      rw [hmm, sum_map_div_val, div_self (ne_of_gt hpos)]
    · intro hall
      rw [hall] at hz'
      exact absurd hz'.2 (by simp)

attribute [local semireducible] Rat.add Rat.mul Rat.inv Rat.sub in
/-- Witness for C2: the invariant evaluated at a record with no text at all;
every raw score is zero and the result is the uniform distribution. -/
theorem C2_witness :
    normalize_scores (score_paper_binary_priority unknownRec).1 =
      (score_paper_binary_priority unknownRec).1.map (fun e => (e.1, (1 : ℚ) / 4)) :=
  (C2_probability_invariant unknownRec).2.2 (by decide)

theorem unescapeGo_of_no_amp (fuel : Nat) (s : List Char) (h : '&' ∉ s) :
    unescapeGo fuel s = s := by
  induction fuel generalizing s with
  | zero => cases s <;> rfl
  | succ fuel ih =>
    cases s with
    | nil => rfl
    | cons c rest =>
      have hc : (c == '&') = false := by
        simp only [List.mem_cons, not_or] at h
        simp [beq_iff_eq]
        exact fun hcc => h.1 (by rw [hcc])
      simp only [unescapeGo, hc]
      rw [ih rest (fun hm => h (List.mem_cons_of_mem c hm))]
      simp

theorem unescapeFix_of_no_amp (fuel : Nat) (s : List Char) (h : '&' ∉ s) :
    unescapeFix (fuel + 1) s = s := by
  simp only [unescapeFix, unescape, unescapeGo_of_no_amp _ s h]
  simp

theorem stripTagsGo_of_no_lt (fuel : Nat) (s : List Char) (h : '<' ∉ s) :
    stripTagsGo fuel s = s := by
  induction fuel generalizing s with
  | zero => cases s <;> rfl
  | succ fuel ih =>
    cases s with
    | nil => rfl
    | cons c rest =>
      have hc : (c == '<') = false := by
        simp only [List.mem_cons, not_or] at h
        simp [beq_iff_eq]
        exact fun hcc => h.1 (by rw [hcc])
      simp only [stripTagsGo, hc]
      rw [ih rest (fun hm => h (List.mem_cons_of_mem c hm))]
      simp

theorem stripTags_of_no_lt (s : List Char) (h : '<' ∉ s) : stripTags s = s :=
  stripTagsGo_of_no_lt s.length s h

theorem mem_collapseGo {c : Char} (b : Bool) (l : List Char) (h : c ∈ collapseGo b l) :
    c ∈ l ∨ c = ' ' := by
  induction l generalizing b with
  | nil => cases h
  | cons d rest ih =>
    by_cases hd : isSpaceChar d = true
    · cases b with
      | true =>
        rw [show collapseGo true (d :: rest) = collapseGo true rest by
          simp [collapseGo, hd]] at h
        rcases ih true h with hm | he
        · exact Or.inl (List.mem_cons_of_mem d hm)
        · exact Or.inr he
      | false =>
        rw [show collapseGo false (d :: rest) = ' ' :: collapseGo true rest by
          simp [collapseGo, hd]] at h
        rcases List.mem_cons.mp h with rfl | h
        · exact Or.inr rfl
        · rcases ih true h with hm | he
          · exact Or.inl (List.mem_cons_of_mem d hm)
          · exact Or.inr he
    · rw [show collapseGo b (d :: rest) = d :: collapseGo false rest by
        simp [collapseGo, hd]] at h
      rcases List.mem_cons.mp h with rfl | h
      · exact Or.inl (List.mem_cons_self c rest)
      · rcases ih false h with hm | he
        · exact Or.inl (List.mem_cons_of_mem d hm)
        · exact Or.inr he

theorem collapseGo_head_true (l : List Char) : headNotSpace (collapseGo true l) := by
  induction l with
  | nil => intro c hc; cases hc
  | cons d rest ih =>
    by_cases hd : isSpaceChar d = true
    · rw [show collapseGo true (d :: rest) = collapseGo true rest by simp [collapseGo, hd]]
      exact ih
    · rw [show collapseGo true (d :: rest) = d :: collapseGo false rest by
        simp [collapseGo, hd]]
      intro c hc
      simp only [List.head?_cons, Option.mem_def, Option.some.injEq] at hc
      subst hc
      simpa using hd

theorem collapseGo_chain (l : List Char) : ∀ b, (collapseGo b l).Chain' noSpacePair := by
  induction l with
  | nil => intro b; simp [collapseGo]
  | cons d rest ih =>
    intro b
    by_cases hd : isSpaceChar d = true
    · cases b with
      | true =>
        rw [show collapseGo true (d :: rest) = collapseGo true rest by
          simp [collapseGo, hd]]
        exact ih true
      | false =>
        rw [show collapseGo false (d :: rest) = ' ' :: collapseGo true rest by
          simp [collapseGo, hd]]
        rw [List.chain'_cons']
        refine ⟨fun y hy => ?_, ih true⟩
        have hns := collapseGo_head_true rest y hy
        intro hpair
        rw [hns] at hpair
        exact absurd hpair.2 (by simp)
    · rw [show collapseGo b (d :: rest) = d :: collapseGo false rest by
        simp [collapseGo, hd]]
      rw [List.chain'_cons']
      refine ⟨fun y hy => ?_, ih false⟩
      intro hpair
      exact hd hpair.1

theorem collapseGo_space_blank {c : Char} (b : Bool) (l : List Char)
    (h : c ∈ collapseGo b l) (hsp : isSpaceChar c = true) : c = ' ' := by
  induction l generalizing b with
  | nil => cases h
  | cons d rest ih =>
    by_cases hd : isSpaceChar d = true
    · cases b with
      | true =>
        rw [show collapseGo true (d :: rest) = collapseGo true rest by
          simp [collapseGo, hd]] at h
        exact ih true h
      | false =>
        rw [show collapseGo false (d :: rest) = ' ' :: collapseGo true rest by
          simp [collapseGo, hd]] at h
        rcases List.mem_cons.mp h with rfl | h
        · rfl
        · exact ih true h
    · rw [show collapseGo b (d :: rest) = d :: collapseGo false rest by
        simp [collapseGo, hd]] at h
      rcases List.mem_cons.mp h with rfl | h
      · exact absurd hsp hd
      · exact ih false h

theorem chain_dropWhile {R : Char → Char → Prop} {l : List Char} (p : Char → Bool)
    (h : l.Chain' R) : (l.dropWhile p).Chain' R := by
  induction l with
  | nil => simp [List.dropWhile]
  | cons d rest ih =>
    rw [List.dropWhile_cons]
    split
    · exact ih h.tail
    · exact h

theorem chain_symm_reverse {l : List Char} (h : l.Chain' noSpacePair) :
    l.reverse.Chain' noSpacePair := by
  rw [List.chain'_reverse]
  exact h.imp (fun a b hab hp => hab ⟨hp.2, hp.1⟩)

theorem headNotSpace_dropWhile (l : List Char) :
    headNotSpace (l.dropWhile isSpaceChar) := by
  induction l with
  | nil => intro c hc; cases hc
  | cons d rest ih =>
    rw [List.dropWhile_cons]
    split
    · exact ih
    · next hd =>
      intro c hc
      simp only [List.head?_cons, Option.mem_def, Option.some.injEq] at hc
      subst hc
      simpa using hd

theorem dropWhile_eq_self_of_headNot {l : List Char} (h : headNotSpace l) :
    l.dropWhile isSpaceChar = l := by
  cases l with
  | nil => rfl
  | cons d rest =>
    rw [List.dropWhile_cons, if_neg]
    have := h d (by simp)
    simp [this]

theorem getLast?_dropWhile_of_ne_nil (p : Char → Bool) (l : List Char)
    (h : l.dropWhile p ≠ []) : (l.dropWhile p).getLast? = l.getLast? := by
  induction l with
  | nil => rfl
  | cons d rest ih =>
    rw [List.dropWhile_cons]
    rw [List.dropWhile_cons] at h
    split
    · next hp =>
      rw [if_pos hp] at h
      rw [ih h]
      cases rest with
      | nil => simp [List.dropWhile] at h
      | cons e t => rw [List.getLast?_cons_cons]
    · rfl

theorem chain_stripChars {l : List Char} (h : l.Chain' noSpacePair) :
    (stripChars l).Chain' noSpacePair := by
  unfold stripChars
  exact chain_symm_reverse (chain_dropWhile _ (chain_symm_reverse (chain_dropWhile _ h)))

theorem mem_stripChars {c : Char} {l : List Char} (h : c ∈ stripChars l) : c ∈ l := by
  unfold stripChars at h
  rw [List.mem_reverse] at h
  have h2 : c ∈ (l.dropWhile isSpaceChar).reverse := (List.dropWhile_sublist _).subset h
  rw [List.mem_reverse] at h2
  exact (List.dropWhile_sublist _).subset h2

theorem collapseGo_true_of_headNot {l : List Char} (h : headNotSpace l) :
    collapseGo true l = collapseGo false l := by
  cases l with
  | nil => rfl
  | cons d rest =>
    have hd := h d (by simp)
    simp only [collapseGo, hd]
    simp

theorem collapse_eq_self {l : List Char} (hch : l.Chain' noSpacePair)
    (hpl : ∀ d ∈ l, isSpaceChar d = true → d = ' ') : collapseGo false l = l := by
  induction l with
  | nil => rfl
  | cons d rest ih =>
    by_cases hd : isSpaceChar d = true
    · have hd' : d = ' ' := hpl d (by simp) hd
      rw [show collapseGo false (d :: rest) = ' ' :: collapseGo true rest by
        simp [collapseGo, hd]]
      have hhead : headNotSpace rest := by
        intro c hc
        rcases List.chain'_cons'.mp hch with ⟨hR, -⟩
        have hRc := hR c hc
        by_contra hcs
        simp only [Bool.not_eq_false] at hcs
        exact hRc ⟨hd, hcs⟩
      rw [collapseGo_true_of_headNot hhead]
      rw [ih hch.tail (fun x hx => hpl x (List.mem_cons_of_mem d hx))]
      rw [hd']
    · rw [show collapseGo false (d :: rest) = d :: collapseGo false rest by
        simp [collapseGo, hd]]
      rw [ih hch.tail (fun x hx => hpl x (List.mem_cons_of_mem d hx))]

theorem ofNat_toNat_of_valid (n : Nat) (h : n.isValidChar) : (Char.ofNat n).toNat = n := by
  unfold Char.ofNat
  rw [dif_pos h]
  unfold Char.ofNatAux Char.toNat
  simp [UInt32.toNat]

theorem toLower_idem (c : Char) : Char.toLower (Char.toLower c) = Char.toLower c := by
  unfold Char.toLower
  by_cases h : c.toNat ≥ 65 ∧ c.toNat ≤ 90
  · rw [if_pos h]
    have hval : (c.toNat + 32).isValidChar := by
      unfold Nat.isValidChar
      left
      omega
    have hv : (Char.ofNat (c.toNat + 32)).toNat = c.toNat + 32 := ofNat_toNat_of_valid _ hval
    rw [if_neg (by rw [hv]; omega)]
  · rw [if_neg h, if_neg h]

theorem map_toLower_eq_self {l : List Char} (h : ∀ c ∈ l, Char.toLower c = c) :
    l.map Char.toLower = l := by
  induction l with
  | nil => rfl
  | cons c rest ih =>
    rw [List.map_cons, h c (by simp), ih (fun x hx => h x (List.mem_cons_of_mem c hx))]

theorem headNotSpace_reverse_stripChars (l : List Char) :
    headNotSpace (stripChars l).reverse := by
  unfold stripChars
  rw [List.reverse_reverse]
  exact headNotSpace_dropWhile _

theorem headNotSpace_stripChars (l : List Char) : headNotSpace (stripChars l) := by
  unfold stripChars
  intro c hc
  rw [List.head?_reverse] at hc
  by_cases hne : List.dropWhile isSpaceChar (l.dropWhile isSpaceChar).reverse = []
  · rw [hne] at hc
    cases hc
  · rw [getLast?_dropWhile_of_ne_nil _ _ hne, List.getLast?_reverse] at hc
    exact headNotSpace_dropWhile l c hc

theorem stripChars_of_stripped {l : List Char} (hh : headNotSpace l)
    (hr : headNotSpace l.reverse) : stripChars l = l := by
  unfold stripChars
  rw [dropWhile_eq_self_of_headNot hh, dropWhile_eq_self_of_headNot hr,
    List.reverse_reverse]

theorem normTitleChars_mem {c : Char} {s : List Char} (h : c ∈ normTitleChars s) :
    (isWordChar c || isSpaceChar c) = true ∧ Char.toLower c = c ∧
      (isSpaceChar c = true → c = ' ') := by
  unfold normTitleChars at h
  have h1 := mem_stripChars h
  have hblank := fun hsp => collapseGo_space_blank false _ h1 hsp
  rcases mem_collapseGo false _ h1 with hm | he
  · rw [List.mem_filter] at hm
    obtain ⟨hmap, hkeep⟩ := hm
    rw [List.mem_map] at hmap
    obtain ⟨d, -, rfl⟩ := hmap
    exact ⟨hkeep, toLower_idem d, hblank⟩
  · subst he
    exact ⟨by decide, by decide, fun _ => rfl⟩

theorem normTitleChars_idem (s : List Char) :
    normTitleChars (normTitleChars s) = normTitleChars s := by
  set N := normTitleChars s with hN
  have hmem : ∀ c ∈ N, (isWordChar c || isSpaceChar c) = true ∧ Char.toLower c = c ∧
      (isSpaceChar c = true → c = ' ') := fun c hc => normTitleChars_mem (hN ▸ hc)
  have hamp : '&' ∉ N := by
    intro hm
    have h1 := (hmem '&' hm).1
    revert h1
    decide
  have hlt : '<' ∉ N := by
    intro hm
    have h1 := (hmem '<' hm).1
    revert h1
    decide
  have hchain : N.Chain' noSpacePair := by
    rw [hN]
    unfold normTitleChars
    exact chain_stripChars (collapseGo_chain _ false)
  have hhead : headNotSpace N := by
    rw [hN]
    unfold normTitleChars
    exact headNotSpace_stripChars _
  have hrev : headNotSpace N.reverse := by
    rw [hN]
    unfold normTitleChars
    exact headNotSpace_reverse_stripChars _
  have hblank : ∀ d ∈ N, isSpaceChar d = true → d = ' ' := fun d hd => (hmem d hd).2.2
  unfold normTitleChars
  rw [unescapeFix_of_no_amp _ _ hamp]
  rw [stripTags_of_no_lt _ hlt]
  rw [map_toLower_eq_self (fun c hc => (hmem c hc).2.1)]
  rw [List.filter_eq_self.mpr (fun c hc => (hmem c hc).1)]
  rw [show collapseWs N = N from collapse_eq_self hchain hblank]
  exact stripChars_of_stripped hhead hrev

/-- C5: title normalization is total (a Lean function on all strings, the empty
string included) and idempotent. -/
theorem C5_normalize_idempotent (x : String) :
    normalize_title (normalize_title x) = normalize_title x :=
  congrArg (fun l => (⟨l⟩ : String)) (normTitleChars_idem x.data)

attribute [local semireducible] Rat.add Rat.mul Rat.inv Rat.sub in
/-- C6 counterexample: similarity is not symmetric.  For records titled "tide"
and "diet" (same year, no identifiers) the sequence-matcher ratio is
order-dependent (1/4 one way, 1/2 the other), so the two similarity values
differ. -/
theorem C6_counterexample :
    calculate_similarity tideRec dietRec = 19 / 40 ∧
    calculate_similarity dietRec tideRec = 13 / 20 ∧
    calculate_similarity tideRec dietRec ≠ calculate_similarity dietRec tideRec := by
  refine ⟨by decide, by decide, by decide⟩

/-- C1 amended: when an ADS match is present its fields overwrite the base
record wholesale, so the merged title (and likewise any other scalar field the
ADS record carries, e.g. journal) is the ADS value when the ADS match provides
one and the base value otherwise; no other source overwrites these fields. -/
theorem C1_amended_merge_scalars (base : Pub) (s a o : Option Pub) (m : Pub)
    (h : merge_multisource base s a o = some m) :
    m.title = (a.bind Pub.title).or base.title ∧
    m.journal = (a.bind Pub.journal).or base.journal := by
  cases s <;> cases a <;> cases o <;>
    · simp only [merge_multisource, ite_none_some_iff] at h
      obtain ⟨-, rfl⟩ := h
      constructor <;>
        simp [setCitations_title, setCitations_journal, mergeScholar_title,
          mergeScholar_journal, mergeOpenalex_title, mergeOpenalex_journal,
          updateDict_title, updateDict_journal]

/-- Witness for C1: the amended field rule evaluated on the concrete merge of
baseC1 with adsC1. -/
theorem C1_witness :
    mergedC1.title = ((some adsC1).bind Pub.title).or baseC1.title ∧
    mergedC1.journal = ((some adsC1).bind Pub.journal).or baseC1.journal :=
  C1_amended_merge_scalars baseC1 none (some adsC1) none mergedC1 (by decide)

/-- C7: a merged record with at least one matched source has citations equal
to the maximum of citations_by_source values (and that recorded map is
non-empty); with no matched source it keeps the base citation count, default
0. -/
theorem C7_citation_merge (base : Pub) (s a o : Option Pub) (m : Pub)
    (h : merge_multisource base s a o = some m) :
    (¬(s = none ∧ a = none ∧ o = none) →
      m.citationsBySource = some (builtCBS s a o) ∧ builtCBS s a o ≠ [] ∧
        m.citations = some (maxValues (builtCBS s a o))) ∧
    (s = none → a = none → o = none →
      m.citations = some (base.citations.getD 0)) := by
  cases s <;> cases a <;> cases o <;>
    · simp only [merge_multisource, ite_none_some_iff] at h
      obtain ⟨-, rfl⟩ := h
      constructor
      · intro hne
        simp_all [builtCBS, setCitations_citations, setCitations_cbs,
          mergeScholar_citations, mergeOpenalex_citations, updateDict_citations]
      · intro hs ha ho
        simp_all [builtCBS, setCitations_citations, mergeScholar_citations,
          mergeOpenalex_citations, updateDict_citations]

theorem mem_insertYearDesc {x p : Pub} {l : List Pub} :
    x ∈ insertYearDesc p l ↔ x = p ∨ x ∈ l := by
  induction l with
  | nil => simp [insertYearDesc]
  | cons q rest ih =>
    simp only [insertYearDesc]
    split
    · simp only [List.mem_cons, ih]
      tauto
    · simp only [List.mem_cons]

theorem pairwise_insertYearDesc {p : Pub} {l : List Pub}
    (h : l.Pairwise (fun x y => yearKey y ≤ yearKey x)) :
    (insertYearDesc p l).Pairwise (fun x y => yearKey y ≤ yearKey x) := by
  induction l with
  | nil => simp [insertYearDesc]
  | cons q rest ih =>
    rw [List.pairwise_cons] at h
    simp only [insertYearDesc]
    split
    · rw [List.pairwise_cons]
      refine ⟨fun x hx => ?_, ih h.2⟩
      rcases mem_insertYearDesc.mp hx with rfl | hx
      · assumption
      · exact h.1 x hx
    · rw [List.pairwise_cons]
      refine ⟨fun x hx => ?_, List.pairwise_cons.mpr h⟩
      rcases List.mem_cons.mp hx with rfl | hx
      · omega
      · exact le_trans (h.1 x hx) (by omega)

theorem pairwise_sortYearDesc (l : List Pub) :
    (sortYearDesc l).Pairwise (fun x y => yearKey y ≤ yearKey x) := by
  have main : ∀ (l acc : List Pub), acc.Pairwise (fun x y => yearKey y ≤ yearKey x) →
      (l.foldl (fun acc p => insertYearDesc p acc) acc).Pairwise
        (fun x y => yearKey y ≤ yearKey x) := by
    intro l
    induction l with
    | nil => intro acc h; simpa using h
    | cons p rest ih =>
      intro acc h
      exact ih _ (pairwise_insertYearDesc h)
  exact main l [] (by simp)

/-- C10: the multi-source merge returns its final list sorted by year in
non-increasing (newest-first) order, a record without a year counting as year
0. -/
theorem C10_sorted_by_year_desc (paper_list scholar_data ads_data openalex_data : List Pub) :
    (merge_publications_multisource paper_list scholar_data ads_data
      openalex_data).Pairwise (fun x y => yearKey y ≤ yearKey x) := by
  unfold merge_publications_multisource
  exact pairwise_sortYearDesc _

theorem ratio_nonneg (a b : List Char) : 0 ≤ ratio a b := by
  unfold ratio
  split
  · norm_num
  · exact div_nonneg (by positivity) (by positivity)

theorem similarity_nonneg (p q : Pub) : 0 ≤ calculate_similarity p q := by
  have hr := ratio_nonneg (normalize_title (p.title.getD "")).data
      (normalize_title (q.title.getD "")).data
  simp only [calculate_similarity]
  split_ifs <;> linarith

theorem fbm_fold_mono (t : Pub) :
    ∀ (l : List Pub) (acc : Option Pub × ℚ), acc.2 ≤ (l.foldl (fbmStep t) acc).2 := by
  intro l
  induction l with
  | nil => intro acc; exact le_rfl
  | cons p rest ih =>
    intro acc
    refine le_trans ?_ (ih (fbmStep t acc p))
    unfold fbmStep
    dsimp only
    split
    · next h => exact le_of_lt h.1
    · exact le_rfl

theorem fbm_fold_cases (t : Pub) :
    ∀ (l : List Pub) (acc : Option Pub × ℚ),
      l.foldl (fbmStep t) acc = acc ∨
      ∃ c ∈ l, l.foldl (fbmStep t) acc = (some c, calculate_similarity t c) ∧
        67 / 100 ≤ calculate_similarity t c := by
  intro l
  induction l with
  | nil => intro acc; exact Or.inl rfl
  | cons p rest ih =>
    intro acc
    dsimp only [List.foldl]
    rcases ih (fbmStep t acc p) with heq | ⟨c, hc, heq, hθ⟩
    · rw [heq]
      unfold fbmStep
      dsimp only
      split
      · next h => exact Or.inr ⟨p, List.mem_cons_self p rest, rfl, h.2⟩
      · exact Or.inl rfl
    · exact Or.inr ⟨c, List.mem_cons_of_mem p hc, heq, hθ⟩

theorem fbm_fold_max (t : Pub) :
    ∀ (l : List Pub) (acc : Option Pub × ℚ), ∀ d ∈ l,
      calculate_similarity t d < 67 / 100 ∨
      calculate_similarity t d ≤ (l.foldl (fbmStep t) acc).2 := by
  intro l
  induction l with
  | nil => intro acc d hd; cases hd
  | cons p rest ih =>
    intro acc d hd
    dsimp only [List.foldl]
    rcases List.mem_cons.mp hd with rfl | hd
    · by_cases hθ : 67 / 100 ≤ calculate_similarity t d
      · right
        refine le_trans ?_ (fbm_fold_mono t rest (fbmStep t acc d))
        unfold fbmStep
        dsimp only
        split
        · exact le_rfl
        · next h =>
          rcases not_and_or.mp h with h' | h'
          · exact le_of_not_lt h'
          · exact absurd hθ h'
      · exact Or.inl (lt_of_not_le hθ)
    · exact ih (fbmStep t acc p) d hd

theorem fbm_fold_none (t : Pub) (l : List Pub) :
    (l.foldl (fbmStep t) (none, 0)).1 = none ↔
      ∀ c ∈ l, calculate_similarity t c < 67 / 100 := by
  induction l with
  | nil => simp
  | cons p rest ih =>
    dsimp only [List.foldl]
    by_cases h : (0 : ℚ) < calculate_similarity t p ∧ 67 / 100 ≤ calculate_similarity t p
    · rw [show fbmStep t (none, 0) p = (some p, calculate_similarity t p) by
        unfold fbmStep; dsimp only; rw [if_pos h]]
      constructor
      · intro hnone
        exfalso
        rcases fbm_fold_cases t rest (some p, calculate_similarity t p) with
          heq | ⟨c, _, heq, _⟩
        · rw [heq] at hnone; simp at hnone
        · rw [heq] at hnone; simp at hnone
      · intro hall
        exact absurd h.2 (not_le.mpr (hall p (List.mem_cons_self p rest)))
    · rw [show fbmStep t (none, 0) p = (none, 0) by
        unfold fbmStep; dsimp only; rw [if_neg h]]
      rw [ih]
      constructor
      · intro hall c hc
        rcases List.mem_cons.mp hc with rfl | hc
        · by_cases hθ : 67 / 100 ≤ calculate_similarity t c
          · exact absurd ⟨lt_of_lt_of_le (by norm_num) hθ, hθ⟩ h
          · exact lt_of_not_le hθ
        · exact hall c hc
      · intro hall c hc
        exact hall c (List.mem_cons_of_mem p hc)

/-- C4 amended: for every target whose stripped title is non-empty,
findBestMatch returns none exactly when every candidate scores below 0.67, and
any returned candidate is a member of the list that clears the threshold and
attains the maximal similarity.  (For a target with an empty stripped title the
function returns none regardless of candidate scores, as the counterexample
shows.) -/
theorem C4_amended_find_best_match (target : Pub) (cands : List Pub)
    (h : stripStr (target.title.getD "") ≠ "") :
    (find_best_match target cands = none ↔
      ∀ c ∈ cands, calculate_similarity target c < 67 / 100) ∧
    (∀ c, find_best_match target cands = some c →
      c ∈ cands ∧ 67 / 100 ≤ calculate_similarity target c ∧
      ∀ d ∈ cands, calculate_similarity target d ≤ calculate_similarity target c) := by
  unfold find_best_match
  dsimp only
  rw [if_neg h]
  constructor
  · exact fbm_fold_none target cands
  · intro c hc
    rcases fbm_fold_cases target cands (none, 0) with heq | ⟨c', hc', heq, hθ⟩
    · rw [heq] at hc
      simp at hc
    · rw [heq] at hc
      dsimp only at hc
      cases hc
      refine ⟨hc', hθ, fun d hd => ?_⟩
      rcases fbm_fold_max target cands (none, 0) d hd with hlt | hle
      · exact le_of_lt (lt_of_lt_of_le hlt hθ)
      · rw [heq] at hle
        exact hle

attribute [local semireducible] Rat.add Rat.mul Rat.inv Rat.sub in
/-- C4 counterexample: a target whose title is present but empty is refused a
match even though a candidate with an identical DOI scores 1.0, above the 0.67
threshold — so findBestMatch does not always return a maximal candidate with
similarity at least 0.67. -/
theorem C4_counterexample :
    find_best_match tgtEmptyTitle [candDoi] = none ∧
    calculate_similarity tgtEmptyTitle candDoi = 1 ∧
    (67 / 100 : ℚ) ≤ calculate_similarity tgtEmptyTitle candDoi := by
  refine ⟨by decide, by decide, by decide⟩

attribute [local semireducible] Rat.add Rat.mul Rat.inv Rat.sub in
/-- Witness for C4: the amended characterization evaluated on a concrete
target and a one-candidate list sharing its DOI. -/
theorem C4_witness :
    candC4 ∈ [candC4] ∧ 67 / 100 ≤ calculate_similarity tgtC4 candC4 ∧
    ∀ d ∈ [candC4], calculate_similarity tgtC4 d ≤ calculate_similarity tgtC4 candC4 :=
  (C4_amended_find_best_match tgtC4 [candC4] (by decide)).2 candC4 (by decide)

/-- Witness for C7: the citation rule evaluated on a concrete merge with one
matched source. -/
theorem C7_witness :
    mergedC7.citationsBySource = some (builtCBS none (some adsC7) none) ∧
    builtCBS none (some adsC7) none ≠ [] ∧
    mergedC7.citations = some (maxValues (builtCBS none (some adsC7) none)) :=
  (C7_citation_merge baseC7 none (some adsC7) none mergedC7 (by decide)).1 (by simp)

theorem sb_fold_cases :
    ∀ (l : List Pub) (acc : Option Pub × ℚ),
      (l.foldl sbStep acc).1 = acc.1 ∨ ∃ x ∈ l, (l.foldl sbStep acc).1 = some x := by
  intro l
  induction l with
  | nil => intro acc; exact Or.inl rfl
  | cons p rest ih =>
    intro acc
    dsimp only [List.foldl]
    rcases ih (sbStep acc p) with heq | ⟨x, hx, heq⟩
    · rw [heq]
      unfold sbStep
      dsimp only
      split
      · exact Or.inr ⟨p, List.mem_cons_self p rest, rfl⟩
      · exact Or.inl rfl
    · exact Or.inr ⟨x, List.mem_cons_of_mem p hx, heq⟩

theorem selectBest_sub {ps : List Pub} : ∀ x ∈ selectBest ps, x ∈ ps := by
  intro x hx
  unfold selectBest at hx
  rcases h : (ps.foldl sbStep (none, -1)).1 with _ | b
  · rw [h] at hx
    cases hx
  · rw [h] at hx
    rcases List.mem_singleton.mp hx with rfl
    rcases sb_fold_cases ps (none, -1) with heq | ⟨y, hy, heq⟩
    · rw [h] at heq
      cases heq
    · rw [h] at heq
      cases heq
      exact hy

theorem selectBest_len (ps : List Pub) : (selectBest ps).length ≤ 1 := by
  unfold selectBest
  split <;> simp

theorem groupHandler_mem {L : List Pub} {k : String} :
    ∀ x ∈ groupHandler L k, x ∈ L ∧ normKey x = k := by
  intro x hx
  unfold groupHandler at hx
  split at hx
  · cases hx
  · next p heq =>
    rcases List.mem_singleton.mp hx with rfl
    have hp : x ∈ L.filter (fun p => normKey p = k) := by
      rw [heq]
      exact List.mem_singleton.mpr rfl
    rw [List.mem_filter] at hp
    exact ⟨hp.1, by simpa using hp.2⟩
  · have hp : x ∈ L.filter (fun p => normKey p = k) := selectBest_sub x hx
    rw [List.mem_filter] at hp
    exact ⟨hp.1, by simpa using hp.2⟩

theorem groupHandler_len (L : List Pub) (k : String) : (groupHandler L k).length ≤ 1 := by
  unfold groupHandler
  split
  · simp
  · simp
  · exact selectBest_len _

theorem len_le_one_nodup {α : Type} {l : List α} (h : l.length ≤ 1) : l.Nodup := by
  match l with
  | [] => exact List.nodup_nil
  | [x] => simp
  | x :: y :: rest => simp at h

theorem mem_flatten_handler {L : List Pub} {keys : List String} {x : Pub}
    (hx : x ∈ (keys.map (groupHandler L)).flatten) : normKey x ∈ keys ∧ x ∈ L := by
  rw [List.mem_flatten] at hx
  obtain ⟨sub, hsub, hxs⟩ := hx
  rw [List.mem_map] at hsub
  obtain ⟨k, hk, rfl⟩ := hsub
  have h := groupHandler_mem x hxs
  exact ⟨h.2 ▸ hk, h.1⟩

theorem nodup_out_keys {L : List Pub} {keys : List String} (hk : keys.Nodup) :
    (((keys.map (groupHandler L)).flatten).map normKey).Nodup := by
  induction keys with
  | nil => simp
  | cons k rest ih =>
    rw [List.map_cons, List.flatten_cons, List.map_append]
    rw [List.nodup_cons] at hk
    apply List.Nodup.append
    · exact len_le_one_nodup (le_trans (by simp) (groupHandler_len L k))
    · exact ih hk.2
    · intro a ha hb
      rw [List.mem_map] at ha
      obtain ⟨y, hy, rfl⟩ := ha
      have h1 := (groupHandler_mem y hy).2
      rw [List.mem_map] at hb
      obtain ⟨z, hz, hzz⟩ := hb
      have h2 := (mem_flatten_handler hz).1
      rw [hzz, h1] at h2
      exact hk.1 h2

theorem firstKeys_nodup (l : List String) : (firstKeys l).Nodup := by
  induction l with
  | nil => exact List.nodup_nil
  | cons k rest ih =>
    rw [firstKeys, List.nodup_cons]
    constructor
    · intro hmem
      rw [List.mem_filter] at hmem
      exact (of_decide_eq_true hmem.2) rfl
    · exact ih.filter _

theorem firstKeys_eq_self {l : List String} (h : l.Nodup) : firstKeys l = l := by
  induction l with
  | nil => rfl
  | cons k rest ih =>
    rw [List.nodup_cons] at h
    rw [firstKeys, ih h.2, List.filter_eq_self.mpr]
    intro a ha
    have hne : a ≠ k := fun he => h.1 (he ▸ ha)
    simpa using hne

theorem filter_key_of_nodup {L : List Pub} (h : (L.map normKey).Nodup) :
    ∀ p ∈ L, L.filter (fun q => normKey q = normKey p) = [p] := by
  induction L with
  | nil => intro p hp; cases hp
  | cons q rest ih =>
    intro p hp
    rw [List.map_cons, List.nodup_cons] at h
    rcases List.mem_cons.mp hp with rfl | hp
    · rw [List.filter_cons_of_pos (by simp)]
      have hrest : rest.filter (fun x => normKey x = normKey p) = [] := by
        rw [List.filter_eq_nil_iff]
        intro a ha
        simp only [decide_eq_true_eq]
        intro he
        exact h.1 (he ▸ List.mem_map_of_mem normKey ha)
      rw [hrest]
    · rw [List.filter_cons_of_neg, ih h.2 p hp]
      have hne : normKey q ≠ normKey p :=
        fun he => h.1 (he ▸ List.mem_map_of_mem normKey hp)
      simpa using hne

theorem flatten_handler_of_filter (L : List Pub) :
    ∀ (l : List Pub), (∀ p ∈ l, L.filter (fun q => normKey q = normKey p) = [p]) →
      ((l.map normKey).map (groupHandler L)).flatten = l := by
  intro l
  induction l with
  | nil => intro _; rfl
  | cons p rest ih =>
    intro h
    rw [List.map_cons, List.map_cons, List.flatten_cons]
    rw [show groupHandler L (normKey p) = [p] by
      unfold groupHandler
      rw [h p (List.mem_cons_self p rest)]]
    rw [ih (fun x hx => h x (List.mem_cons_of_mem p hx))]
    rfl

theorem check_eq_self_of_nodup {L : List Pub} (h : (L.map normKey).Nodup) :
    check_for_duplicates L = L := by
  unfold check_for_duplicates
  split
  · rfl
  · rw [firstKeys_eq_self h]
    exact flatten_handler_of_filter L L (filter_key_of_nodup h)

/-- C9: the duplicate resolver is idempotent: applied to its own output it
returns that output unchanged, since the output carries pairwise-distinct
normalized titles. -/
theorem C9_dedup_idempotent (l : List Pub) :
    check_for_duplicates (check_for_duplicates l) = check_for_duplicates l := by
  by_cases he : l.isEmpty = true
  · have hl : check_for_duplicates l = l := by
      unfold check_for_duplicates
      rw [if_pos he]
    rw [hl, hl]
  · apply check_eq_self_of_nodup
    unfold check_for_duplicates
    rw [if_neg he]
    exact nodup_out_keys (firstKeys_nodup _)

theorem matchB_symm (t : List Char) (i j : Nat) : matchB t i j = matchB t j i := by
  unfold matchB
  cases hi : t.get? i with
  | none => cases hj : t.get? j <;> rfl
  | some ci =>
    cases hj : t.get? j with
    | none => rfl
    | some cj =>
      by_cases hcc : ci = cj
      · subst hcc
        rfl
      · show (ci == cj && !isPopular t cj) = (cj == ci && !isPopular t ci)
        rw [beq_eq_false_iff_ne.mpr hcc, beq_eq_false_iff_ne.mpr (Ne.symm hcc)]
        rfl

theorem matchB_diag_left {t : List Char} {i j : Nat} (h : matchB t i j = true) :
    matchB t i i = true := by
  unfold matchB at h ⊢
  cases hi : t.get? i with
  | none => rw [hi] at h; cases hj : t.get? j <;> (rw [hj] at h; simp at h)
  | some ci =>
    rw [hi] at h
    cases hj : t.get? j with
    | none => rw [hj] at h; simp at h
    | some cj =>
      rw [hj] at h
      simp only [Bool.and_eq_true, beq_iff_eq] at h
      obtain ⟨rfl, hp⟩ := h
      simp [hp]

theorem matchB_lt_length {t : List Char} {i j : Nat} (h : matchB t i j = true) :
    i < t.length ∧ j < t.length := by
  unfold matchB at h
  cases hi : t.get? i with
  | none => rw [hi] at h; cases hj : t.get? j <;> (rw [hj] at h; simp at h)
  | some ci =>
    cases hj : t.get? j with
    | none => rw [hi, hj] at h; simp at h
    | some cj =>
      constructor
      · by_contra hlt
        rw [List.get?_eq_none.mpr (le_of_not_lt hlt)] at hi
        cases hi
      · by_contra hlt
        rw [List.get?_eq_none.mpr (le_of_not_lt hlt)] at hj
        cases hj

theorem cs_symm (t : List Char) : ∀ i j, cs t i j = cs t j i := by
  intro i
  induction i with
  | zero =>
    intro j
    cases j with
    | zero => rfl
    | succ j' => simp only [cs, matchB_symm t 0 (j' + 1)]
  | succ i' ih =>
    intro j
    cases j with
    | zero => simp only [cs, matchB_symm t (i' + 1) 0]
    | succ j' => simp only [cs, matchB_symm t (i' + 1) (j' + 1), ih j']

theorem cs_le_diag (t : List Char) : ∀ i j, cs t i j ≤ cs t i i := by
  intro i
  induction i with
  | zero =>
    intro j
    cases j with
    | zero => exact le_rfl
    | succ j' =>
      simp only [cs]
      split
      · next h => rw [if_pos (matchB_diag_left h)]
      · exact Nat.zero_le _
  | succ i' ih =>
    intro j
    cases j with
    | zero =>
      simp only [cs]
      split
      · next h =>
        rw [if_pos (matchB_diag_left h)]
        omega
      · exact Nat.zero_le _
    | succ j' =>
      simp only [cs]
      split
      · next h =>
        rw [if_pos (matchB_diag_left h)]
        have := ih j'
        omega
      · exact Nat.zero_le _

theorem cs_le_idx (t : List Char) : ∀ i j, cs t i j ≤ i + 1 := by
  intro i
  induction i with
  | zero =>
    intro j
    cases j <;> (simp only [cs]; split <;> omega)
  | succ i' ih =>
    intro j
    cases j with
    | zero => simp only [cs]; split <;> omega
    | succ j' =>
      simp only [cs]
      split
      · have := ih j'
        omega
      · omega

theorem cs_le_diag2 (t : List Char) (i j : Nat) : cs t i j ≤ cs t j j := by
  rw [cs_symm]
  exact cs_le_diag t j i

theorem maxDiag_le {t : List Char} : ∀ {i j : Nat}, j < i → cs t j j ≤ maxDiag t i := by
  intro i
  induction i with
  | zero => intro j h; omega
  | succ i' ih =>
    intro j h
    rcases Nat.lt_succ_iff_lt_or_eq.mp h with h' | rfl
    · exact le_trans (ih h') (le_max_left _ _)
    · exact le_max_right _ _

theorem cs_zero_of_not_matchB {t : List Char} {i j : Nat} (h : matchB t i j = false) :
    cs t i j = 0 := by
  cases i <;> cases j <;> (unfold cs; rw [h]; simp)

theorem mem_b2j {t : List Char} {c : Char} {j : Nat} :
    j ∈ b2j t c ↔ t.get? j = some c ∧ isPopular t c = false := by
  unfold b2j posList
  split
  · next hp =>
    simp only [List.not_mem_nil, false_iff, not_and]
    intro _ hnp
    rw [hp] at hnp
    cases hnp
  · next hp =>
    rw [List.mem_filter, List.mem_range]
    constructor
    · intro h
      exact ⟨by simpa using h.2, by simpa using hp⟩
    · intro h
      obtain ⟨hg, -⟩ := h
      refine ⟨?_, by simpa using hg⟩
      by_contra hlt
      rw [List.get?_eq_none.mpr (le_of_not_lt hlt)] at hg
      cases hg

theorem b2j_sorted (t : List Char) (c : Char) : (b2j t c).Pairwise (· < ·) := by
  unfold b2j posList
  split
  · exact List.Pairwise.nil
  · exact (List.pairwise_lt_range t.length).filter _

theorem lookup_map_graph (f : Nat → Nat) (x : Nat) :
    ∀ (js : List Nat), lookupD (js.map (fun j => (j, f j))) x =
      if x ∈ js then f x else 0 := by
  intro js
  induction js with
  | nil => simp [lookupD]
  | cons j rest ih =>
    rw [List.map_cons]
    unfold lookupD
    unfold lookupD at ih
    rw [List.find?_cons]
    by_cases hx : j = x
    · subst hx
      rw [show (((j, f j)).1 == j) = true by simp]
      rw [if_pos (List.mem_cons_self j rest)]
    · rw [show (((j, f j)).1 == x) = false by simpa using hx]
      dsimp only
      rw [ih]
      by_cases hmem : x ∈ rest
      · rw [if_pos hmem, if_pos (List.mem_cons_of_mem j hmem)]
      · rw [if_neg hmem, if_neg ?_]
        intro hmm
        rcases List.mem_cons.mp hmm with rfl | hmm
        · exact hx rfl
        · exact hmem hmm

theorem flmInner_self (t : List Char) (i : Nat) (j2len : List (Nat × Nat))
    (hlk : ∀ j, lookupD j2len j = prevCs t i j) :
    ∀ (js : List Nat) (acc : List (Nat × Nat)) (d s : Nat),
      (∀ j ∈ js, matchB t i j = true) →
      js.Pairwise (· < ·) →
      (∀ j ∈ js, j < i → cs t j j ≤ s) →
      (i ∈ js ∨ cs t i i ≤ s) →
      d + s ≤ t.length →
      ∃ d' s',
        flmInner 0 t.length i j2len js (acc, (d, d, s)) =
          (acc ++ js.map (fun j => (j, cs t i j)), (d', d', s')) ∧
        d' + s' ≤ t.length ∧ s ≤ s' ∧ cs t i i ≤ s' := by
  intro js
  induction js with
  | nil =>
    intro acc d s hall hsort hP1 hP2 hds
    refine ⟨d, s, by simp [flmInner], hds, le_rfl, ?_⟩
    rcases hP2 with h | h
    · cases h
    · exact h
  | cons j js' ih =>
    intro acc d s hall hsort hP1 hP2 hds
    have hmj : matchB t i j = true := hall j (List.mem_cons_self j js')
    have hjL : j < t.length := (matchB_lt_length hmj).2
    have hiL : i < t.length := (matchB_lt_length hmj).1
    have hk : (if j = 0 then 0 else lookupD j2len (j - 1)) + 1 = cs t i j := by
      rcases i with _ | i' <;> rcases j with _ | j' <;>
        simp [hlk, prevCs, cs, hmj]
    have hstep : flmInner 0 t.length i j2len (j :: js') (acc, (d, d, s)) =
        flmInner 0 t.length i j2len js'
          (acc ++ [(j, cs t i j)],
           if s < cs t i j then (i + 1 - cs t i j, j + 1 - cs t i j, cs t i j)
           else (d, d, s)) := by
      simp only [flmInner]
      rw [if_neg (Nat.not_lt_zero j), if_neg (not_le.mpr hjL)]
      rw [hk]
    rw [hstep]
    by_cases hupd : s < cs t i j
    · rw [if_pos hupd]
      rcases Nat.lt_trichotomy j i with hji | rfl | hij
      · exfalso
        have h1 : cs t i j ≤ cs t j j := cs_le_diag2 t i j
        have h2 := hP1 j (List.mem_cons_self j js') hji
        omega
      · have hk1 : cs t j j ≤ j + 1 := cs_le_idx t j j
        obtain ⟨d', s', heq, hd's', hss', hcss'⟩ :=
          ih (acc ++ [(j, cs t j j)]) (j + 1 - cs t j j) (cs t j j)
            (fun x hx => hall x (List.mem_cons_of_mem j hx))
            (List.pairwise_cons.mp hsort).2
            (fun x hx hxi => by
              have := (List.pairwise_cons.mp hsort).1 x hx
              omega)
            (Or.inr le_rfl)
            (by omega)
        refine ⟨d', s', ?_, hd's', le_trans (le_of_lt hupd) hss', hcss'⟩
        rw [heq, List.map_cons, List.append_assoc, List.singleton_append]
      · exfalso
        have h1 : cs t i j ≤ cs t i i := cs_le_diag t i j
        have h2 : cs t i i ≤ s := by
          rcases hP2 with hmem | hle
          · exfalso
            rcases List.mem_cons.mp hmem with rfl | hmem'
            · omega
            · have := (List.pairwise_cons.mp hsort).1 i hmem'
              omega
          · exact hle
        omega
    · rw [if_neg hupd]
      obtain ⟨d', s', heq, h1, h2, h3⟩ :=
        ih (acc ++ [(j, cs t i j)]) d s
          (fun x hx => hall x (List.mem_cons_of_mem j hx))
          (List.pairwise_cons.mp hsort).2
          (fun x hx hxi => hP1 x (List.mem_cons_of_mem j hx) hxi)
          (by
            rcases hP2 with hmem | hle
            · rcases List.mem_cons.mp hmem with rfl | hmem'
              · exact Or.inr (by omega)
              · exact Or.inl hmem'
            · exact Or.inr hle)
          hds
      refine ⟨d', s', ?_, h1, h2, h3⟩
      rw [heq, List.map_cons, List.append_assoc, List.singleton_append]

theorem flmRows_self (t : List Char) :
    ∀ (count start : Nat) (j2len : List (Nat × Nat)) (d s : Nat),
      start + count ≤ t.length →
      (∀ j, lookupD j2len j = prevCs t start j) →
      maxDiag t start ≤ s →
      d + s ≤ t.length →
      ∃ d' s',
        ((List.range' start count).foldl (flmRow t t 0 t.length) (j2len, (d, d, s))).2 =
          (d', d', s') ∧
        d' + s' ≤ t.length := by
  intro count
  induction count with
  | zero =>
    intro start j2len d s hsc hlk hmd hds
    exact ⟨d, s, rfl, hds⟩
  | succ count ih =>
    intro start j2len d s hsc hlk hmd hds
    rw [List.range'_succ]
    have hsL : start < t.length := by omega
    obtain ⟨c, hc⟩ : ∃ c, t.get? start = some c := by
      cases hg : t.get? start with
      | none =>
        rw [List.get?_eq_none] at hg
        omega
      | some c => exact ⟨c, rfl⟩
    have hrow : flmRow t t 0 t.length (j2len, (d, d, s)) start =
        flmInner 0 t.length start j2len (b2j t c) ([], (d, d, s)) := by
      unfold flmRow
      rw [hc]
    have hall : ∀ j ∈ b2j t c, matchB t start j = true := by
      intro j hj
      rw [mem_b2j] at hj
      unfold matchB
      rw [hc, hj.1]
      simp [hj.2]
    have hP1 : ∀ j ∈ b2j t c, j < start → cs t j j ≤ s :=
      fun j _ hj => le_trans (maxDiag_le hj) hmd
    have hP2 : start ∈ b2j t c ∨ cs t start start ≤ s := by
      by_cases hp : isPopular t c = true
      · right
        have hm : matchB t start start = false := by
          unfold matchB
          rw [hc]
          simp [hp]
        rw [cs_zero_of_not_matchB hm]
        omega
      · exact Or.inl (mem_b2j.mpr ⟨hc, by simpa using hp⟩)
    obtain ⟨d₁, s₁, heq, hds₁, hss₁, hcs₁⟩ :=
      flmInner_self t start j2len hlk (b2j t c) [] d s hall (b2j_sorted t c) hP1 hP2 hds
    dsimp only [List.foldl]
    rw [hrow, heq]
    have hlk' : ∀ x, lookupD ((b2j t c).map (fun j => (j, cs t start j))) x =
        prevCs t (start + 1) x := by
      intro x
      rw [lookup_map_graph]
      show (if x ∈ b2j t c then cs t start x else 0) = cs t start x
      split
      · rfl
      · next hnm =>
        symm
        apply cs_zero_of_not_matchB
        unfold matchB
        rw [hc]
        cases hx : t.get? x with
        | none => rfl
        | some cx =>
          by_cases hcx : c = cx
          · subst hcx
            have hpop : isPopular t c = true := by
              by_contra hp
              exact hnm (mem_b2j.mpr ⟨hx, by simpa using hp⟩)
            simp [hpop]
          · simp [beq_eq_false_iff_ne.mpr hcx]
    have hmd' : maxDiag t (start + 1) ≤ s₁ := by
      unfold maxDiag
      exact max_le (le_trans hmd hss₁) hcs₁
    have := ih (start + 1) ((b2j t c).map (fun j => (j, cs t start j))) d₁ s₁
      (by omega) hlk' hmd' hds₁
    obtain ⟨d', s', hfin, hfin2⟩ := this
    refine ⟨d', s', ?_, hfin2⟩
    rw [List.nil_append]
    exact hfin

theorem flmMain_self (t : List Char) :
    ∃ d s, flmMain t t 0 t.length 0 t.length = (d, d, s) ∧ d + s ≤ t.length := by
  obtain ⟨d, s, heq, hds⟩ :=
    flmRows_self t t.length 0 [] 0 0 (by omega) (fun j => rfl) (by simp [maxDiag])
      (by omega)
  refine ⟨d, s, ?_, hds⟩
  unfold flmMain
  rw [Nat.sub_zero]
  exact heq

theorem extendL_self (t : List Char) :
    ∀ (d s : Nat), d + s ≤ t.length → extendL t t 0 0 d d s = (0, 0, d + s) := by
  intro d
  induction d with
  | zero => intro s _; simp [extendL]
  | succ d' ih =>
    intro s hds
    rw [extendL]
    have hget : ∃ c, t.get? d' = some c := by
      cases hg : t.get? d' with
      | none =>
        rw [List.get?_eq_none] at hg
        omega
      | some c => exact ⟨c, rfl⟩
    obtain ⟨c, hc⟩ := hget
    rw [if_pos]
    · rw [show d' + 1 - 1 = d' from rfl]
      rw [ih (s + 1) (by omega)]
      have hadd : d' + (s + 1) = d' + 1 + s := by omega
      rw [hadd]
    · simp only [Nat.succ_sub_one, hc]
      simp [elemEq]

theorem extendR_self (t : List Char) :
    ∀ (fuel s : Nat), s ≤ t.length → t.length - s ≤ fuel →
      extendR t t t.length t.length 0 0 fuel s = t.length := by
  intro fuel
  induction fuel with
  | zero =>
    intro s hs hf
    have : s = t.length := by omega
    subst this
    rfl
  | succ fuel ih =>
    intro s hs hf
    rw [extendR]
    by_cases hlt : s < t.length
    · obtain ⟨c, hc⟩ : ∃ c, t.get? s = some c := by
        cases hg : t.get? s with
        | none =>
          rw [List.get?_eq_none] at hg
          omega
        | some c => exact ⟨c, rfl⟩
      rw [if_pos]
      · exact ih (s + 1) (by omega) (by omega)
      · simp only [Nat.zero_add, hc]
        simp [hlt, elemEq]
    · rw [if_neg]
      · omega
      · simp [hlt]

theorem flm_self (t : List Char) :
    find_longest_match t t 0 t.length 0 t.length = (0, 0, t.length) := by
  obtain ⟨d, s, hm, hds⟩ := flmMain_self t
  unfold find_longest_match
  rw [hm]
  dsimp only
  rw [extendL_self t d s hds]
  dsimp only
  rw [extendR_self t t.length (d + s) hds (by omega)]

/-- The ratio of any character list with itself is 1: with a = b the main
loop's best block is always diagonal, the extension loops then grow it to the
whole sequence, and 2L/(L+L) = 1. -/
theorem ratio_self (t : List Char) : ratio t t = 1 := by
  unfold ratio
  split
  · rfl
  · next hne =>
    have hL : t.length ≠ 0 := by omega
    have hM : matchesTotal t t (t.length + t.length + 1) 0 t.length 0 t.length =
        t.length := by
      simp only [matchesTotal]
      rw [flm_self]
      simp [hL]
    rw [hM]
    have hz : (t.length : ℚ) + (t.length : ℚ) ≠ 0 := by
      have hpos : (0 : ℚ) < (t.length : ℚ) := by
        exact_mod_cast Nat.pos_of_ne_zero hL
      positivity
    show (2 : ℚ) * (t.length : ℚ) / ((t.length : ℚ) + (t.length : ℚ)) = 1
    rw [show (2 : ℚ) * (t.length : ℚ) = (t.length : ℚ) + (t.length : ℚ) by ring]
    exact div_self hz

/-- C6 amended: similarity of a record with itself is always exactly 1.0
(through the identifier fast path when an identifier is present, else as
0.7 x 1 + 0.3 x 1); full symmetry fails in general because the sequence-matcher
ratio is order-dependent, as the counterexample shows. -/
theorem C6_amended_similarity_self (a : Pub) : calculate_similarity a a = 1 := by
  simp only [calculate_similarity]
  rw [ratio_self]
  rw [show (if True then (1 : ℚ) else 0) = 1 from if_pos trivial]
  by_cases h1 : lowerStr (a.doi.getD "") ≠ "" ∧ lowerStr (a.doi.getD "") ≠ "" ∧ True
  · rw [if_pos h1, if_pos (by norm_num : (0 : ℚ) < 1)]
  · rw [if_neg h1]
    by_cases h2 : lowerStr (a.arxivId.getD "") ≠ "" ∧ lowerStr (a.arxivId.getD "") ≠ "" ∧ True
    · rw [if_pos h2, if_pos (by norm_num : (0 : ℚ) < 1)]
    · rw [if_neg h2, if_neg (by norm_num : ¬(0 : ℚ) < 0)]
      norm_num

end MergeData
